import Mathlib

/-!
# bin2mif: binary image to memory-initialisation text

A shallow embedding of `tools/bin2mif.c` (word packing, block partitioning,
the two text renderings, option validation) and of the LED chaser in
`src/main.c`, followed by theorems about them.

Conventions of the embedding:
* a C `int` is an `Int`; every `int` operation of the source is followed by
  `wrap_int` (two's complement wrap to 32 bits), so overflow is visible;
* a `uint32_t` is a `Nat` below `2^32`, a `uint8_t` is a `Fin 256`;
* `data[k]` is a checked read: outside the allocated buffer it yields `none`
  and the whole computation is `none` (undefined behaviour in C);
* a text file is the list of its lines (each `fprintf` of the source writes
  whole newline-terminated lines); a line is a `List Char`.
-/

namespace Bin2Mif

/-- One `uint8_t`. -/
abbrev Byte := Fin 256

/-- One line of an output file, without its terminating newline. -/
abbrev Line := List Char

/-- Largest value of a C `int` (32 bits). -/
def INT_MAX : Int := 2147483647

/-- Two's complement wrap of a mathematical integer into the range of a 32-bit `int`. -/
def wrap_int (x : Int) : Int := (x + 2147483648) % 4294967296 - 2147483648

/-- The `int` product `a * b`. -/
def int_mul (a b : Int) : Int := wrap_int (a * b)

/-- The `int` sum `a + b`. -/
def int_add (a b : Int) : Int := wrap_int (a + b)

/-- The `int` quotient `a / b` (C division truncates toward zero); `none` for a zero divisor. -/
def int_div (a b : Int) : Option Int :=
  if b = 0 then none else some (wrap_int (Int.tdiv a b))

/-- The read `data[k]` of a buffer of `data.length` allocated bytes: `none` outside it. -/
def data_at (data : List Byte) (k : Int) : Option Byte :=
  if 0 ≤ k then data.get? k.toNat else none

/-- The `uint32_t` expression `((uint32_t)b) << (byte * 8)`. -/
def shl_u32 (b : Byte) (byte : Nat) : Nat := (b.val <<< (byte * 8)) % 4294967296

/-- The inner loop of both generators (bin2mif.c lines 139-141 and 197-199):
`for (byte = byte; byte < word_size / 8 && byte_offset + byte < data_size; byte++)
   word_data |= ((uint32_t)data[byte_offset + byte]) << (byte * 8);`
The first argument counts the iterations still allowed by `byte < word_size / 8`. -/
def pack_bytes (data : List Byte) (data_size byte_offset : Int) :
    Nat → Nat → Nat → Option Nat
  | 0, _, word_data => some word_data
  | n + 1, byte, word_data =>
    if int_add byte_offset byte < data_size then
      match data_at data (int_add byte_offset byte) with
      | some b => pack_bytes data data_size byte_offset n (byte + 1) (word_data ||| shl_u32 b byte)
      | none => none
    else some word_data

/-- The value of `word_data` after lines 134-142 (equally 192-200) for a given `byte_offset`:
the fill pattern by default, the packed bytes when `byte_offset < data_size`.
`bytes_per_word` is the already computed `word_size / 8`. -/
def word_data_at (data : List Byte) (data_size byte_offset bytes_per_word : Int)
    (fill_pattern : Nat) : Option Nat :=
  if byte_offset < data_size then
    pack_bytes data data_size byte_offset bytes_per_word.toNat 0 0
  else some fill_pattern

/-- Word `word` of block `block_num` in `generate_mif_file` (lines 133-142):
`byte_offset = (block_num * block_size) + (word * (word_size / 8))`. -/
def mif_word (data : List Byte) (data_size block_num block_size word_size : Int)
    (fill_pattern : Nat) (word : Nat) : Option Nat :=
  match int_div word_size 8 with
  | none => none
  | some bpw =>
    word_data_at data data_size
      (int_add (int_mul block_num block_size) (int_mul word bpw)) bpw fill_pattern

/-- Word `word` in `generate_single_mif_file` (lines 191-200):
`byte_offset = word * (word_size / 8)`. -/
def single_mif_word (data : List Byte) (data_size word_size : Int)
    (fill_pattern : Nat) (word : Nat) : Option Nat :=
  match int_div word_size 8 with
  | none => none
  | some bpw => word_data_at data data_size (int_mul word bpw) bpw fill_pattern


/-! ## The buffer indices read by the packer -/

/-- The indices `byte_offset + byte` at which the inner loop (lines 139-141 and 197-199)
evaluates `data[...]`, in order; same guard and same counter as `pack_bytes`. -/
def pack_reads (data_size byte_offset : Int) : Nat → Nat → List Int
  | 0, _ => []
  | n + 1, byte =>
    if int_add byte_offset byte < data_size then
      int_add byte_offset byte :: pack_reads data_size byte_offset n (byte + 1)
    else []

/-- The indices read for the word at `byte_offset` (lines 136-142): none when the guard
`byte_offset < data_size` fails. -/
def word_reads (data_size byte_offset bytes_per_word : Int) : List Int :=
  if byte_offset < data_size then pack_reads data_size byte_offset bytes_per_word.toNat 0
  else []

/-- The indices read by `generate_mif_file` for word `word` of block `block_num`. -/
def mif_word_reads (data_size block_num block_size word_size : Int) (word : Nat) :
    Option (List Int) :=
  match int_div word_size 8 with
  | none => none
  | some bpw =>
    some (word_reads data_size (int_add (int_mul block_num block_size) (int_mul word bpw)) bpw)

/-- The indices read by `generate_single_mif_file` for word `word`. -/
def single_mif_word_reads (data_size word_size : Int) (word : Nat) : Option (List Int) :=
  match int_div word_size 8 with
  | none => none
  | some bpw => some (word_reads data_size (int_mul word bpw) bpw)

/-! ## Text rendering (`printf` conversions) -/

/-- The digit character of `d < 16` as `printf` writes it for `%X` and `%d`: `0`-`9`, `A`-`F`. -/
def digit_char (d : Nat) : Char :=
  if d < 10 then Char.ofNat (48 + d) else Char.ofNat (55 + d)

/-- Digits of `n` in base `base`, most significant first, without padding.
The first argument bounds the number of digits (8 hex or 10 decimal digits for 32 bits). -/
def digits_of (base : Nat) : Nat → Nat → List Char
  | 0, _ => []
  | fuel + 1, n =>
    if n < base then [digit_char n]
    else digits_of base fuel (n / base) ++ [digit_char (n % base)]

/-- The conversion `%0<width>X` of an `unsigned int` argument: uppercase hexadecimal,
padded with zeros on the left to at least `width` characters. -/
def printf_X (width : Nat) (v : Nat) : List Char :=
  let ds := digits_of 16 8 (v % 4294967296)
  List.replicate (width - ds.length) '0' ++ ds

/-- The conversion `%d` of an `int` argument. -/
def printf_d (x : Int) : List Char :=
  if x < 0 then '-' :: digits_of 10 10 (-x).toNat else digits_of 10 10 x.toNat

/-- Line 113: `"// Simple hex format for block %d\n"`. -/
def hex_comment_line (block_num : Int) : Line :=
  "// Simple hex format for block ".toList ++ printf_d block_num

/-- Line 146: `"%08X\n"`. -/
def hex_line (word_data : Nat) : Line := printf_X 8 word_data

/-- Lines 149 and 203: `"%04X : %08X;\n"`. -/
def mif_line (word : Nat) (word_data : Nat) : Line :=
  printf_X 4 word ++ " : ".toList ++ printf_X 8 word_data ++ ";".toList

/-- The lines written by the word loop in hex format, one per word. -/
def hex_lines (words : List Nat) : List Line := words.map hex_line

/-- The lines written by the word loop in MIF format for the words starting at index `word`. -/
def content_lines : Nat → List Nat → List Line
  | _, [] => []
  | word, word_data :: rest => mif_line word word_data :: content_lines (word + 1) rest

/-- The declaration lines shared by both headers (lines 123-128 and 182-187). -/
def mif_declarations (depth word_size : Int) : List Line :=
  [ "DEPTH = ".toList ++ printf_d depth ++ ";".toList,
    "WIDTH = ".toList ++ printf_d word_size ++ ";".toList,
    "ADDRESS_RADIX = HEX;".toList,
    "DATA_RADIX = HEX;".toList,
    "CONTENT".toList,
    "BEGIN".toList ]

/-- Lines 117-128. `now` is the text returned by `ctime` without its final newline; that
newline ends the `Generated` line and the one of the format string leaves an empty line. -/
def mif_header (now : Line) (block_num block_size words_per_block word_size : Int)
    (fill_pattern : Nat) : List Line :=
  [ "-- Auto-generated MIF file for Block ".toList ++ printf_d block_num,
    "-- Generated by bin2mif version 1.1.0".toList,
    "-- Block size: ".toList ++ printf_d block_size ++ " bytes, ".toList
      ++ printf_d words_per_block ++ " words".toList,
    "-- Fill pattern: 0x".toList ++ printf_X 8 fill_pattern,
    "-- Generated: ".toList ++ now,
    [] ] ++ mif_declarations words_per_block word_size

/-- Lines 176-187. -/
def single_mif_header (now : Line) (total_size total_words word_size : Int)
    (fill_pattern : Nat) : List Line :=
  [ "-- Single complete MIF file".toList,
    "-- Generated by bin2mif version 1.1.0".toList,
    "-- Total size: ".toList ++ printf_d total_size ++ " bytes, ".toList
      ++ printf_d total_words ++ " words".toList,
    "-- Fill pattern: 0x".toList ++ printf_X 8 fill_pattern,
    "-- Generated: ".toList ++ now,
    [] ] ++ mif_declarations total_words word_size

/-! ## The two generators -/

/-- The loop `for (int word = word; word < word + n; word++)` collecting each `word_data`;
`none` as soon as one word is undefined. -/
def collect_words (f : Nat → Option Nat) : Nat → Nat → Option (List Nat)
  | 0, _ => some []
  | n + 1, word =>
    match f word with
    | none => none
    | some word_data =>
      match collect_words f n (word + 1) with
      | none => none
      | some rest => some (word_data :: rest)

/-- Line 104: `words_per_block = block_size / (word_size / 8)` (also lines 169 and 272). -/
def words_per_block (block_size word_size : Int) : Option Int :=
  match int_div word_size 8 with
  | none => none
  | some bpw => int_div block_size bpw

/-- The word sequence of block `block_num` (loop of lines 132-142). -/
def mif_words (data : List Byte) (data_size block_num block_size word_size : Int)
    (fill_pattern : Nat) : Option (List Nat) :=
  match words_per_block block_size word_size with
  | none => none
  | some wpb =>
    collect_words (mif_word data data_size block_num block_size word_size fill_pattern)
      wpb.toNat 0

/-- The word sequence of the single file (loop of lines 190-200). -/
def single_mif_words (data : List Byte) (data_size total_size word_size : Int)
    (fill_pattern : Nat) : Option (List Nat) :=
  match words_per_block total_size word_size with
  | none => none
  | some total_words =>
    collect_words (single_mif_word data data_size word_size fill_pattern) total_words.toNat 0

/-- The text `generate_mif_file` writes to the opened file (lines 104-155). -/
def mif_file_text (now : Line) (data : List Byte)
    (data_size block_num block_size word_size : Int) (fill_pattern : Nat)
    (verbose hex_format : Bool) : Option (List Line) :=
  match words_per_block block_size word_size with
  | none => none
  | some wpb =>
    match mif_words data data_size block_num block_size word_size fill_pattern with
    | none => none
    | some words =>
      if hex_format then
        some ((if verbose then [hex_comment_line block_num] else []) ++ hex_lines words)
      else
        some (mif_header now block_num block_size wpb word_size fill_pattern
          ++ content_lines 0 words ++ ["END;".toList])

/-- The text `generate_single_mif_file` writes to the opened file (lines 169-206). -/
def single_mif_file_text (now : Line) (data : List Byte)
    (data_size total_size word_size : Int) (fill_pattern : Nat) : Option (List Line) :=
  match words_per_block total_size word_size with
  | none => none
  | some total_words =>
    match single_mif_words data data_size total_size word_size fill_pattern with
    | none => none
    | some words =>
      some (single_mif_header now total_size total_words word_size fill_pattern
        ++ content_lines 0 words ++ ["END;".toList])

/-! ## Configuration and option parsing -/

/-- The constant `MAX_BLOCKS`. -/
def MAX_BLOCKS : Int := 128

/-- The constant `MAX_FILENAME`. -/
def MAX_FILENAME : Nat := 256

/-- The structure `config_t`; the three `int` flags are booleans, strings are character lists. -/
structure config_t where
  input_file : List Char
  output_pattern : List Char
  block_size : Int
  block_type : List Char
  word_size : Int
  max_blocks : Int
  verbose : Bool
  total_blocks : Int
  total_size : Int
  fill_pattern : Nat
  hex_format : Bool
  single_mif : Bool
deriving DecidableEq

/-- The function `init_config` (lines 82-92): everything zeroed, then the defaults. -/
def init_config : config_t :=
  { input_file := [],
    output_pattern := [],
    block_size := 512,
    block_type := "m4k".toList,
    word_size := 32,
    max_blocks := MAX_BLOCKS,
    verbose := false,
    total_blocks := 96,
    total_size := 49152,
    fill_pattern := 0x00000013,
    hex_format := false,
    single_mif := false }

/-- One result of `getopt_long` (lines 296-317). An option with a numeric argument carries
the value the source obtains from it: `atoi(optarg)` as an `int`, or `strtoul(optarg, NULL, 0)`
for the fill pattern. `unknown` is the result `?`. -/
inductive getopt_event where
  | input (optarg : List Char)
  | output (optarg : List Char)
  | block_size (atoi_optarg : Int)
  | block_type (optarg : List Char)
  | word_size (atoi_optarg : Int)
  | max_blocks (atoi_optarg : Int)
  | total_blocks (atoi_optarg : Int)
  | total_size (atoi_optarg : Int)
  | fill_pattern (strtoul_optarg : Nat)
  | hex
  | single_mif
  | verbose
  | help
  | version
  | unknown
deriving DecidableEq

/-- How `parse_arguments` ends: it returns a code and leaves the configuration it has
written so far, or it ends the program through `exit`. -/
inductive parse_result where
  | returned (rc : Int) (config : config_t)
  | exited (status : Int)
deriving DecidableEq

/-- The function `parse_arguments` (lines 295-400) over the sequence of `getopt_long` results. -/
def parse_arguments : List getopt_event → config_t → parse_result
  | [], config =>
    if config.input_file.length = 0 then parse_result.returned (-1) config
    else if config.output_pattern.length = 0 then parse_result.returned (-1) config
    else parse_result.returned 0 config
  | c :: rest, config =>
    match c with
    | getopt_event.input optarg =>
      parse_arguments rest { config with input_file := optarg.take (MAX_FILENAME - 1) }
    | getopt_event.output optarg =>
      parse_arguments rest { config with output_pattern := optarg.take (MAX_FILENAME - 1) }
    | getopt_event.block_size v =>
      if v ≤ 0 then parse_result.returned (-1) { config with block_size := v }
      else parse_arguments rest { config with block_size := v }
    | getopt_event.block_type optarg =>
      parse_arguments rest { config with block_type := optarg.take 15 }
    | getopt_event.word_size v =>
      if v ≠ 8 ∧ v ≠ 16 ∧ v ≠ 32 then parse_result.returned (-1) { config with word_size := v }
      else parse_arguments rest { config with word_size := v }
    | getopt_event.max_blocks v =>
      if v ≤ 0 ∨ v > MAX_BLOCKS then parse_result.returned (-1) { config with max_blocks := v }
      else parse_arguments rest { config with max_blocks := v }
    | getopt_event.total_blocks v =>
      if v ≤ 0 ∨ v > MAX_BLOCKS then
        parse_result.returned (-1) { config with total_blocks := v }
      else parse_arguments rest { config with total_blocks := v }
    | getopt_event.total_size v =>
      if v ≤ 0 then parse_result.returned (-1) { config with total_size := v }
      else parse_arguments rest { config with total_size := v }
    | getopt_event.fill_pattern v =>
      parse_arguments rest { config with fill_pattern := v % 4294967296 }
    | getopt_event.hex => parse_arguments rest { config with hex_format := true }
    | getopt_event.single_mif => parse_arguments rest { config with single_mif := true }
    | getopt_event.verbose => parse_arguments rest { config with verbose := true }
    | getopt_event.help => parse_result.exited 0
    | getopt_event.version => parse_result.exited 0
    | getopt_event.unknown => parse_result.returned (-1) config

/-! ## Files and the conversion -/

/-- What the program sees of its surroundings: `load` is the outcome of lines 214-238 for
an input path (`none` when the file cannot be opened, allocated or read completely),
`can_create` tells whether `fopen(filename, "w")` succeeds, `snprintf` is the rendering of
line 274 (pattern and block index to file name), `now` the text of `ctime`. -/
structure world where
  load : List Char → Option (List Byte)
  can_create : List Char → Bool
  snprintf : List Char → Int → List Char
  now : Line

/-- One file written by the run: its name and its lines. -/
structure output_unit where
  filename : List Char
  text : List Line
deriving DecidableEq

/-- The function `generate_mif_file` (lines 95-158): the return code and the files written. -/
def generate_mif_file (w : world) (filename : List Char) (data : List Byte)
    (data_size block_num block_size word_size : Int) (fill_pattern : Nat)
    (verbose hex_format : Bool) : Option (Int × List output_unit) :=
  if w.can_create filename then
    match mif_file_text w.now data data_size block_num block_size word_size fill_pattern
        verbose hex_format with
    | none => none
    | some text => some (0, [{ filename := filename, text := text }])
  else some (-1, [])

/-- The function `generate_single_mif_file` (lines 161-209). -/
def generate_single_mif_file (w : world) (filename : List Char) (data : List Byte)
    (data_size total_size word_size : Int) (fill_pattern : Nat) (_verbose : Bool) :
    Option (Int × List output_unit) :=
  if w.can_create filename then
    match single_mif_file_text w.now data data_size total_size word_size fill_pattern with
    | none => none
    | some text => some (0, [{ filename := filename, text := text }])
  else some (-1, [])

/-- The structure `block_info_t`. -/
structure block_info_t where
  block_num : Int
  size_bytes : Int
  size_words : Int
  filename : List Char
deriving DecidableEq

/-- The descriptor `blocks[i]` filled in by lines 270-274. -/
def block_info (w : world) (config : config_t) (i : Nat) : Option block_info_t :=
  match words_per_block config.block_size config.word_size with
  | none => none
  | some size_words =>
    some { block_num := i,
           size_bytes := config.block_size,
           size_words := size_words,
           filename := w.snprintf config.output_pattern i }

/-- The block loop of `convert_bin_to_mif` (lines 269-283) from index `i` on; the first
argument bounds the iterations left (`i < MAX_BLOCKS`). A failing block ends the run with
`-1` and leaves the files written before it. -/
def convert_blocks (w : world) (config : config_t) (data : List Byte) (file_size : Int) :
    Nat → Nat → Option (Int × List output_unit)
  | 0, _ => some (0, [])
  | n + 1, i =>
    if (i : Int) < config.total_blocks ∧ (i : Int) < MAX_BLOCKS then
      match block_info w config i with
      | none => none
      | some info =>
        match generate_mif_file w info.filename data (wrap_int file_size) i config.block_size
            config.word_size config.fill_pattern config.verbose config.hex_format with
        | none => none
        | some (rc, files) =>
          if rc ≠ 0 then some (-1, files)
          else
            match convert_blocks w config data file_size n (i + 1) with
            | none => none
            | some (rc_rest, rest) => some (rc_rest, files ++ rest)
    else some (0, [])

/-- The function `convert_bin_to_mif` (lines 212-292). The `long file_size` becomes the
`int data_size` of the generators by the implicit conversion of the call. -/
def convert_bin_to_mif (w : world) (config : config_t) : Option (Int × List output_unit) :=
  match w.load config.input_file with
  | none => some (-1, [])
  | some data =>
    if config.single_mif then
      match generate_single_mif_file w config.output_pattern data (wrap_int data.length)
          config.total_size config.word_size config.fill_pattern config.verbose with
      | none => none
      | some (rc, files) => if rc ≠ 0 then some (-1, files) else some (0, files)
    else convert_blocks w config data data.length MAX_BLOCKS.toNat 0

/-- The function `main` (lines 402-416): exit status and files written. -/
def main (w : world) (args : List getopt_event) : Option (Int × List output_unit) :=
  match parse_arguments args init_config with
  | parse_result.exited status => some (status, [])
  | parse_result.returned rc config =>
    if rc ≠ 0 then some (1, [])
    else
      match convert_bin_to_mif w config with
      | none => none
      | some (rc_convert, files) => if rc_convert ≠ 0 then some (1, files) else some (0, files)

/-! ## Reference definitions used to state the properties -/

/-- The byte of lane `k` of the word slot starting at `offset`: the buffer's byte where the
position `offset + k` is inside the buffer, `0` at and beyond its end. -/
def lane_byte (data : List Byte) (offset k : Nat) : Nat :=
  if offset + k < data.length then (data.getD (offset + k) 0).val else 0

/-- Little-endian value of the `n` byte lanes starting at `offset`:
the sum over `k < n` of `lane k * 2^(8k)`. -/
def le_value (data : List Byte) (offset n : Nat) : Nat :=
  ((List.range n).map (fun k => lane_byte data offset k * 2 ^ (8 * k))).sum

/-- The word at absolute byte offset `offset` for words of `n` bytes: the little-endian value
of its lanes when the word starts inside the buffer, the fill pattern when it starts at or
beyond the buffer's end. -/
def word_at_offset (data : List Byte) (offset n : Nat) (fill_pattern : Nat) : Nat :=
  if offset < data.length then le_value data offset n else fill_pattern

/-- Byte lane `k` of a 32-bit word. -/
def lane_of (v k : Nat) : Nat := v / 2 ^ (8 * k) % 256

/-- The bytes of the slot `[offset, offset + n)` packed little-endian:
the sum over `k < n` of `data[offset + k] * 2^(8k)`. -/
def packed_le (data : List Byte) (offset n : Nat) : Nat :=
  ((List.range n).map (fun k => (data.getD (offset + k) 0).val * 2 ^ (8 * k))).sum

/-! ## Reading the text back -/

/-- Whether `c` is an uppercase hexadecimal digit, `0`-`9` or `A`-`F`. -/
def is_upper_hex (c : Char) : Bool :=
  (48 ≤ c.toNat && c.toNat ≤ 57) || (65 ≤ c.toNat && c.toNat ≤ 70)

/-- The value of a hexadecimal digit character, `none` for any other character. -/
def hex_digit_value (c : Char) : Option Nat :=
  if 48 ≤ c.toNat ∧ c.toNat ≤ 57 then some (c.toNat - 48)
  else if 65 ≤ c.toNat ∧ c.toNat ≤ 70 then some (c.toNat - 55)
  else if 97 ≤ c.toNat ∧ c.toNat ≤ 102 then some (c.toNat - 87)
  else none

/-- Reading hexadecimal digits, most significant first, onto the value read so far. -/
def read_hex_from : Nat → List Char → Option Nat
  | acc, [] => some acc
  | acc, c :: cs =>
    match hex_digit_value c with
    | none => none
    | some d => read_hex_from (16 * acc + d) cs

/-- Reading a non-empty string of hexadecimal digits as a number. -/
def read_hex (s : List Char) : Option Nat :=
  match s with
  | [] => none
  | _ :: _ => read_hex_from 0 s

/-- Parsing one content line `ADDR : DATA;`, reading ADDR and DATA as hexadecimal. -/
def parse_content_line (l : Line) : Option (Nat × Nat) :=
  match l.dropWhile (fun c => c != ' ') with
  | ' ' :: ':' :: ' ' :: rest =>
    match rest.dropWhile (fun c => c != ';') with
    | [';'] =>
      match read_hex (l.takeWhile (fun c => c != ' ')),
            read_hex (rest.takeWhile (fun c => c != ';')) with
      | some addr, some word_data => some (addr, word_data)
      | _, _ => none
    | _ => none
  | _ => none

/-- The content section of a structured file: the lines after the `BEGIN` line and before
the `END;` line. -/
def content_section (text : List Line) : List Line :=
  ((text.dropWhile (fun l => l != "BEGIN".toList)).drop 1).takeWhile
    (fun l => l != "END;".toList)

/-- Parsing every line of a list of content lines. -/
def parse_lines : List Line → Option (List (Nat × Nat))
  | [] => some []
  | l :: rest =>
    match parse_content_line l with
    | none => none
    | some entry =>
      match parse_lines rest with
      | none => none
      | some entries => some (entry :: entries)

/-- Parsing the content section of a structured file into its (address, data) pairs. -/
def parse_content (text : List Line) : Option (List (Nat × Nat)) :=
  parse_lines (content_section text)

/-- The word sequence `words` with the word indices `word, word + 1, ...` attached. -/
def indexed_from : Nat → List Nat → List (Nat × Nat)
  | _, [] => []
  | word, word_data :: rest => (word, word_data) :: indexed_from (word + 1) rest

/-- The string `s` is `value` written in uppercase hexadecimal and padded with zeros on the
left to at least `min_width` digits: only hexadecimal digits, reading back as `value`, at
least `min_width` long, and longer only when `value` needs that many digits. -/
def is_hex_field (s : List Char) (min_width value : Nat) : Prop :=
  (∀ c, c ∈ s → is_upper_hex c = true) ∧ read_hex s = some value ∧
    min_width ≤ s.length ∧ (min_width < s.length → 16 ^ (s.length - 1) ≤ value)

/-! ## The LED chaser (`src/main.c`) -/

/-- The table `knight_rider_patterns` (main.c lines 12-18). -/
def knight_rider_patterns : List Nat :=
  [ 0x00001, 0x00002, 0x00004, 0x00008, 0x00010, 0x00020, 0x00040, 0x00080,
    0x00100, 0x00200, 0x00400, 0x00800, 0x01000, 0x02000, 0x04000, 0x08000,
    0x10000, 0x20000, 0x10000, 0x08000, 0x04000, 0x02000, 0x01000, 0x00800,
    0x00400, 0x00200, 0x00100, 0x00080, 0x00040, 0x00020, 0x00010, 0x00008,
    0x00004, 0x00002 ]

/-- The constant `num_patterns`: `sizeof(knight_rider_patterns) / sizeof(knight_rider_patterns[0])`. -/
def num_patterns : Nat := knight_rider_patterns.length

/-- One iteration of the `while (1)` loop of the firmware (main.c lines 35-47) from a value
of `pattern_index`: the value stored to the LED register and the next `pattern_index`.
The table read is checked (`none` outside the table); the increment is a `uint32_t` one. -/
def led_loop_body (pattern_index : Nat) : Option (Nat × Nat) :=
  match knight_rider_patterns.get? pattern_index with
  | none => none
  | some pattern =>
    let next := (pattern_index + 1) % 4294967296
    some (pattern, if next ≥ num_patterns then 0 else next)

/-- The step relation of the firmware on `pattern_index`: one loop iteration. -/
def led_step (pattern_index next : Nat) : Prop :=
  ∃ pattern, led_loop_body pattern_index = some (pattern, next)

/-- The values of `pattern_index` reachable from the initial value `0`. -/
inductive led_reachable : Nat → Prop
  | start : led_reachable 0
  | step (pattern_index next : Nat) :
      led_reachable pattern_index → led_step pattern_index next → led_reachable next

/-- The values written to the LED register by the first `n` iterations from `pattern_index`. -/
def led_writes : Nat → Nat → Option (List Nat)
  | 0, _ => some []
  | n + 1, pattern_index =>
    match led_loop_body pattern_index with
    | none => none
    | some (pattern, next) =>
      match led_writes n next with
      | none => none
      | some rest => some (pattern :: rest)

/-! ## A small concrete run, used to instantiate the theorems -/

/-- The characters `snprintf` produces from a format whose conversion specifications are
plain `%d` (written as the block index `i`) and `%%` (one percent sign); every other
character is copied. A format without a conversion is copied unchanged. The source passes
one index, so the rendering is that of C for formats with at most one `%d`. -/
def format_d : List Char → Int → List Char
  | [], _ => []
  | '%' :: 'd' :: rest, i => printf_d i ++ format_d rest i
  | '%' :: '%' :: rest, i => '%' :: format_d rest i
  | c :: rest, i => c :: format_d rest i

/-- Surroundings in which the input file holds the bytes `01 02 03 04 05`, every output file
can be created and the file name of block `i` is what
`snprintf(filename, MAX_FILENAME, pattern, i)` writes: the formatted pattern cut to
`MAX_FILENAME - 1` characters. -/
def sample_world : world :=
  { load := fun _ => some [1, 2, 3, 4, 5],
    can_create := fun _ => true,
    snprintf := fun pattern i => (format_d pattern i).take (MAX_FILENAME - 1),
    now := "Sat Oct 31 07:41:00 2026".toList }

/-- The default configuration with file names, two blocks of four bytes. -/
def sample_config : config_t :=
  { init_config with
    input_file := "fw.bin".toList,
    output_pattern := "fw_".toList,
    block_size := 4,
    total_blocks := 2 }

/-! ## Predicates used to state the properties -/

/-- The layout of a structured text declaring `depth` words of `width` bits: the lines
`DEPTH = depth;` and `WIDTH = width;` come before the first `BEGIN` line, the content
section is the `depth` lines between that `BEGIN` line and the `END;` line that ends the
text, and these lines parse as `ADDR : DATA;` with the addresses `0, 1, ..., depth - 1`. -/
def is_structured_text (text : List Line) (depth : Nat) (width : Int) : Prop :=
  text.get? 6 = some ("DEPTH = ".toList ++ printf_d depth ++ ";".toList) ∧
  text.get? 7 = some ("WIDTH = ".toList ++ printf_d width ++ ";".toList) ∧
  text.get? 11 = some "BEGIN".toList ∧
  (∀ j, j < 11 → text.get? j ≠ some "BEGIN".toList) ∧
  text.get? (12 + depth) = some "END;".toList ∧
  text.length = 13 + depth ∧
  content_section text = (text.drop 12).take depth ∧
  (content_section text).length = depth ∧
  ∃ parsed : List (Nat × Nat),
    parse_content text = some parsed ∧ parsed.map Prod.fst = List.range depth

/-- A well-formed configuration: a word size of 8, 16 or 32 bits, positive block and total
sizes, and between 1 and `MAX_BLOCKS` blocks. -/
def well_formed_config (config : config_t) : Prop :=
  (config.word_size = 8 ∨ config.word_size = 16 ∨ config.word_size = 32) ∧
  0 < config.block_size ∧ 0 < config.total_size ∧
  1 ≤ config.total_blocks ∧ config.total_blocks ≤ MAX_BLOCKS

/-- An option whose value lies outside its accepted range. -/
def out_of_range : getopt_event → Prop
  | getopt_event.block_size v => v ≤ 0
  | getopt_event.word_size v => v ≠ 8 ∧ v ≠ 16 ∧ v ≠ 32
  | getopt_event.max_blocks v => v ≤ 0 ∨ v > MAX_BLOCKS
  | getopt_event.total_blocks v => v ≤ 0 ∨ v > MAX_BLOCKS
  | getopt_event.total_size v => v ≤ 0
  | _ => False

/-! ## Basic facts about the integer operations -/

theorem wrap_int_of_range {x : Int} (h1 : -2147483648 ≤ x) (h2 : x ≤ 2147483647) :
    wrap_int x = x := by
  unfold wrap_int; omega

theorem wrap_int_range (x : Int) : -2147483648 ≤ wrap_int x ∧ wrap_int x ≤ 2147483647 := by
  unfold wrap_int; omega

theorem int_div_word_size {word_size : Int}
    (hws : word_size = 8 ∨ word_size = 16 ∨ word_size = 32) :
    int_div word_size 8 = some (word_size / 8) ∧
      (word_size / 8 = 1 ∨ word_size / 8 = 2 ∨ word_size / 8 = 4) := by
  rcases hws with h | h | h <;> subst h <;> decide

theorem or_shl_u32 (acc : Nat) (b : Byte) (byte : Nat) (hb : byte ≤ 3)
    (hacc : acc < 2 ^ (8 * byte)) :
    acc ||| shl_u32 b byte = acc + b.val * 2 ^ (8 * byte) := by
  have hb256 : b.val < 256 := b.isLt
  have hlt : b.val * 2 ^ (8 * byte) < 4294967296 := by
    interval_cases byte <;> omega
  unfold shl_u32
  rw [Nat.shiftLeft_eq, Nat.mul_comm byte 8, Nat.mod_eq_of_lt hlt]
  rw [Nat.lor_comm, Nat.mul_comm, ← Nat.mul_add_lt_is_or hacc, Nat.add_comm]

theorem lane_sum_succ (f : Nat → Nat) (n : Nat) :
    ((List.range (n + 1)).map f).sum = f 0 + ((List.range n).map (fun k => f (k + 1))).sum := by
  rw [List.range_succ_eq_map, List.map_cons, List.sum_cons, List.map_map]
  rfl

theorem data_at_of_lt (data : List Byte) (k : Nat) (h : k < data.length) :
    data_at data (k : Int) = some (data.getD k 0) := by
  unfold data_at
  simp [List.getD, List.get?_eq_get h, List.getElem?_eq_getElem h]

theorem lane_byte_of_lt (data : List Byte) (off k : Nat) (h : off + k < data.length) :
    lane_byte data off k = (data.getD (off + k) 0).val := by
  simp [lane_byte, h]

theorem lane_byte_of_ge (data : List Byte) (off k : Nat) (h : data.length ≤ off + k) :
    lane_byte data off k = 0 := by
  unfold lane_byte
  rw [if_neg (by omega)]

theorem lane_byte_lt (data : List Byte) (off k : Nat) : lane_byte data off k < 256 := by
  unfold lane_byte
  split
  · exact (data.getD (off + k) 0).isLt
  · decide

theorem pack_step_bound (acc b byte : Nat) (hb : b < 256) (hacc : acc < 2 ^ (8 * byte)) :
    acc + b * 2 ^ (8 * byte) < 2 ^ (8 * (byte + 1)) := by
  have hp : 2 ^ (8 * (byte + 1)) = 256 * 2 ^ (8 * byte) := by
    rw [Nat.mul_add, Nat.pow_add, Nat.mul_comm]
  rw [hp]
  have h1 : b * 2 ^ (8 * byte) ≤ 255 * 2 ^ (8 * byte) := Nat.mul_le_mul_right _ (by omega)
  generalize 2 ^ (8 * byte) = P at *
  generalize b * P = Q at *
  omega

/-- The inner loop computes the little-endian sum of the lanes it is allowed to visit,
reading only inside the buffer. -/
theorem pack_bytes_eq (data : List Byte) (off : Nat)
    (hlen : (data.length : Int) ≤ 2147483647) :
    ∀ (n byte acc : Nat), byte + n ≤ 4 → off + byte ≤ data.length → acc < 2 ^ (8 * byte) →
      pack_bytes data data.length off n byte acc
        = some (acc + ((List.range n).map
            (fun k => lane_byte data off (k + byte) * 2 ^ (8 * (k + byte)))).sum) := by
  intro n
  induction n with
  | zero => intro byte acc _ _ _; rfl
  | succ n ih =>
    intro byte acc hb hoff hacc
    have hwrap : int_add (off : Int) (byte : Int) = ((off + byte : Nat) : Int) := by
      unfold int_add
      rw [Nat.cast_add]
      exact wrap_int_of_range (by omega) (by omega)
    rw [pack_bytes, hwrap]
    by_cases hin : off + byte < data.length
    · have hin2 : ((off + byte : Nat) : Int) < (data.length : Int) := Int.ofNat_lt.mpr hin
      rw [if_pos hin2, data_at_of_lt data _ hin]
      show pack_bytes data data.length off n (byte + 1) _ = _
      rw [or_shl_u32 acc _ byte (by omega) hacc]
      rw [ih (byte + 1) _ (by omega) (by omega)
        (pack_step_bound acc _ byte (data.getD (off + byte) 0).isLt hacc)]
      rw [lane_sum_succ, Nat.zero_add, lane_byte_of_lt data off byte hin, Nat.add_assoc]
      have hfun : (fun k => lane_byte data off (k + (byte + 1)) * 2 ^ (8 * (k + (byte + 1))))
          = (fun k => lane_byte data off (k + 1 + byte) * 2 ^ (8 * (k + 1 + byte))) := by
        funext k
        rw [show k + (byte + 1) = k + 1 + byte from by omega]
      rw [hfun]
    · have hin2 : ¬ ((off + byte : Nat) : Int) < (data.length : Int) := by
        intro h; exact hin (Int.ofNat_lt.mp h)
      rw [if_neg hin2]
      have hz : ((List.range (n + 1)).map
          (fun k => lane_byte data off (k + byte) * 2 ^ (8 * (k + byte)))).sum = 0 := by
        apply List.sum_eq_zero
        intro x hx
        rw [List.mem_map] at hx
        obtain ⟨k, _, hk⟩ := hx
        rw [← hk, lane_byte_of_ge data off (k + byte) (by omega), Nat.zero_mul]
      rw [hz, Nat.add_zero]

theorem wrap_int_add_wrap (a b : Int) : wrap_int (wrap_int a + wrap_int b) = wrap_int (a + b) := by
  unfold wrap_int; omega

/-- The byte offset computed by `generate_mif_file` is the mathematical one whenever that
one is a valid `int`. -/
theorem mif_offset_eq (block_num block_size bpw : Int) (word off : Nat)
    (hoff : (off : Int) = block_num * block_size + word * bpw)
    (hmax : (off : Int) ≤ 2147483647) :
    int_add (int_mul block_num block_size) (int_mul word bpw) = (off : Int) := by
  unfold int_add int_mul
  rw [wrap_int_add_wrap, ← hoff]
  exact wrap_int_of_range (by omega) hmax

theorem single_offset_eq (bpw : Int) (word off : Nat)
    (hoff : (off : Int) = word * bpw) (hmax : (off : Int) ≤ 2147483647) :
    int_mul word bpw = (off : Int) := by
  unfold int_mul
  rw [← hoff]
  exact wrap_int_of_range (by omega) hmax

/-- The word at a byte offset that is a valid, non-negative `int`: the little-endian value
of its lanes when the offset is inside the buffer, the fill pattern otherwise. -/
theorem word_data_at_eq (data : List Byte) (off : Nat) (bpw : Int) (fill_pattern : Nat)
    (hlen : (data.length : Int) ≤ 2147483647)
    (hb : bpw = 1 ∨ bpw = 2 ∨ bpw = 4) :
    word_data_at data data.length off bpw fill_pattern
      = some (if off < data.length then le_value data off bpw.toNat else fill_pattern) := by
  unfold word_data_at
  by_cases h : off < data.length
  · have h2 : (off : Int) < (data.length : Int) := by exact_mod_cast h
    rw [if_pos h2, if_pos h]
    have hn : bpw.toNat ≤ 4 := by rcases hb with h | h | h <;> subst h <;> decide
    rw [pack_bytes_eq data off hlen bpw.toNat 0 0 (by omega) (by omega) (by norm_num)]
    simp [le_value]
  · have h2 : ¬ (off : Int) < (data.length : Int) := by
      intro h3; exact h (by exact_mod_cast h3)
    rw [if_neg h2, if_neg h]

/-- Word `word` of a block whose byte offset is a valid, non-negative `int`. -/
theorem mif_word_eq (data : List Byte) (block_num block_size word_size : Int)
    (fill_pattern word off : Nat)
    (hws : word_size = 8 ∨ word_size = 16 ∨ word_size = 32)
    (hlen : (data.length : Int) ≤ 2147483647)
    (hoff : (off : Int) = block_num * block_size + word * (word_size / 8))
    (hmax : (off : Int) ≤ 2147483647) :
    mif_word data data.length block_num block_size word_size fill_pattern word
      = some (if off < data.length then le_value data off (word_size / 8).toNat
              else fill_pattern) := by
  obtain ⟨hdiv, hb⟩ := int_div_word_size hws
  unfold mif_word
  rw [hdiv]
  simp only []
  rw [mif_offset_eq block_num block_size (word_size / 8) word off hoff hmax]
  exact word_data_at_eq data off (word_size / 8) fill_pattern hlen hb

/-- Word `word` of the single file when its byte offset is a valid `int`. -/
theorem single_mif_word_eq (data : List Byte) (word_size : Int)
    (fill_pattern word off : Nat)
    (hws : word_size = 8 ∨ word_size = 16 ∨ word_size = 32)
    (hlen : (data.length : Int) ≤ 2147483647)
    (hoff : (off : Int) = word * (word_size / 8))
    (hmax : (off : Int) ≤ 2147483647) :
    single_mif_word data data.length word_size fill_pattern word
      = some (if off < data.length then le_value data off (word_size / 8).toNat
              else fill_pattern) := by
  obtain ⟨hdiv, hb⟩ := int_div_word_size hws
  unfold single_mif_word
  rw [hdiv]
  simp only []
  rw [single_offset_eq (word_size / 8) word off hoff hmax]
  exact word_data_at_eq data off (word_size / 8) fill_pattern hlen hb

theorem le_value_eq_packed_le (data : List Byte) (off n : Nat)
    (hin : off + n ≤ data.length) : le_value data off n = packed_le data off n := by
  unfold le_value packed_le
  congr 1
  apply List.map_congr_left
  intro k hk
  rw [List.mem_range] at hk
  rw [lane_byte_of_lt data off k (by omega)]

theorem le_value_one (data : List Byte) (off : Nat) :
    le_value data off 1 = lane_byte data off 0 := by
  simp [le_value, List.range_succ]

theorem le_value_two (data : List Byte) (off : Nat) :
    le_value data off 2 = lane_byte data off 0 + lane_byte data off 1 * 256 := by
  simp [le_value, List.range_succ]

theorem le_value_four (data : List Byte) (off : Nat) :
    le_value data off 4 = lane_byte data off 0 + lane_byte data off 1 * 256
      + lane_byte data off 2 * 65536 + lane_byte data off 3 * 16777216 := by
  simp [le_value, List.range_succ]
  omega

theorem le_value_lanes (data : List Byte) (off n : Nat) (hn : n = 1 ∨ n = 2 ∨ n = 4) :
    le_value data off n < 4294967296 ∧
      ∀ k, k < 4 → lane_of (le_value data off n) k
        = if k < n then lane_byte data off k else 0 := by
  have h0 := lane_byte_lt data off 0
  have h1 := lane_byte_lt data off 1
  have h2 := lane_byte_lt data off 2
  have h3 := lane_byte_lt data off 3
  rcases hn with h | h | h <;> subst h
  · rw [le_value_one]
    refine ⟨by omega, ?_⟩
    intro k hk
    interval_cases k <;> simp [lane_of] <;> omega
  · rw [le_value_two]
    refine ⟨by omega, ?_⟩
    intro k hk
    interval_cases k <;> simp [lane_of] <;> omega
  · rw [le_value_four]
    refine ⟨by omega, ?_⟩
    intro k hk
    interval_cases k <;> simp [lane_of] <;> omega

/-- C1. A word whose slot `[off, off + word_size/8)` lies entirely inside the buffer, with
`off = block_num * block_size + word * (word_size/8)`, is the little-endian packing of the
slot's bytes, the sum over `k` of `data[off + k] * 2^(8k)`; the single-file generator yields
the same value for the word at that offset. -/
theorem word_inside_buffer_is_little_endian
    (data : List Byte) (block_num block_size word_size : Int) (fill_pattern word off : Nat)
    (hws : word_size = 8 ∨ word_size = 16 ∨ word_size = 32)
    (hlen : (data.length : Int) ≤ INT_MAX)
    (hoff : (off : Int) = block_num * block_size + word * (word_size / 8))
    (hin : off + (word_size / 8).toNat ≤ data.length) :
    mif_word data data.length block_num block_size word_size fill_pattern word
        = some (packed_le data off (word_size / 8).toNat) ∧
      ∀ word2 : Nat, (off : Int) = word2 * (word_size / 8) →
        single_mif_word data data.length word_size fill_pattern word2
          = some (packed_le data off (word_size / 8).toNat) := by
  have hlen2 : (data.length : Int) ≤ 2147483647 := hlen
  have hpos : 1 ≤ (word_size / 8).toNat := by
    rcases hws with h | h | h <;> subst h <;> decide
  have hlt : off < data.length := by omega
  have hmax : (off : Int) ≤ 2147483647 := by omega
  constructor
  · rw [mif_word_eq data block_num block_size word_size fill_pattern word off hws hlen2 hoff hmax,
      if_pos hlt, le_value_eq_packed_le data off _ hin]
  · intro word2 h2
    rw [single_mif_word_eq data word_size fill_pattern word2 off hws hlen2 h2 hmax,
      if_pos hlt, le_value_eq_packed_le data off _ hin]

/-- Witness of C1: bytes `01 02 03 04`, 32-bit words, block `[0, 4)` give `0x04030201`. -/
theorem word_inside_buffer_is_little_endian_witness :
    packed_le [1, 2, 3, 4] 0 4 = 0x04030201 ∧
      mif_word [1, 2, 3, 4] 4 0 4 32 0x13 0 = some (packed_le [1, 2, 3, 4] 0 4) ∧
      single_mif_word [1, 2, 3, 4] 4 32 0x13 0 = some (packed_le [1, 2, 3, 4] 0 4) :=
  ⟨by decide,
   (word_inside_buffer_is_little_endian [1, 2, 3, 4] 0 4 32 0x13 0 0
      (by decide) (by decide) (by decide) (by decide)).1,
   (word_inside_buffer_is_little_endian [1, 2, 3, 4] 0 4 32 0x13 0 0
      (by decide) (by decide) (by decide) (by decide)).2 0 (by decide)⟩

/-- C2. A word that starts inside the buffer and whose slot extends past its end has the
buffer's bytes in the lanes at positions inside the buffer and `0` in every lane at a position
at or beyond the buffer's length, whatever the fill pattern; the same in both generators. -/
theorem boundary_word_is_zero_padded
    (data : List Byte) (block_num block_size word_size : Int) (fill_pattern word off : Nat)
    (hws : word_size = 8 ∨ word_size = 16 ∨ word_size = 32)
    (hlen : (data.length : Int) ≤ INT_MAX)
    (hoff : (off : Int) = block_num * block_size + word * (word_size / 8))
    (hstart : off < data.length)
    (hend : data.length < off + (word_size / 8).toNat) :
    ∃ v : Nat,
      mif_word data data.length block_num block_size word_size fill_pattern word = some v ∧
      (∀ word2 : Nat, (off : Int) = word2 * (word_size / 8) →
        single_mif_word data data.length word_size fill_pattern word2 = some v) ∧
      v < 2 ^ 32 ∧
      ∀ k, k < 4 → lane_of v k
        = if off + k < data.length then (data.getD (off + k) 0).val else 0 := by
  have hlen2 : (data.length : Int) ≤ 2147483647 := hlen
  have hmax : (off : Int) ≤ 2147483647 := by omega
  have hn : (word_size / 8).toNat = 1 ∨ (word_size / 8).toNat = 2 ∨ (word_size / 8).toNat = 4 := by
    rcases hws with h | h | h <;> subst h <;> decide
  obtain ⟨hb, hl⟩ := le_value_lanes data off (word_size / 8).toNat hn
  refine ⟨le_value data off (word_size / 8).toNat, ?_, ?_, hb, ?_⟩
  · rw [mif_word_eq data block_num block_size word_size fill_pattern word off hws hlen2 hoff hmax,
      if_pos hstart]
  · intro word2 h2
    rw [single_mif_word_eq data word_size fill_pattern word2 off hws hlen2 h2 hmax,
      if_pos hstart]
  · intro k hk
    rw [hl k hk]
    by_cases hin : off + k < data.length
    · rw [if_pos hin, if_pos (by omega), lane_byte_of_lt data off k hin]
    · rw [if_neg hin]
      split
      · exact lane_byte_of_ge data off k (by omega)
      · rfl

/-- Witness of C2: bytes `AA BB CC`, 32-bit words, block `[0, 4)`, fill pattern `0xFFFFFFFF`
give the word `0x00CCBBAA`. -/
theorem boundary_word_is_zero_padded_witness :
    mif_word [0xAA, 0xBB, 0xCC] 3 0 4 32 0xFFFFFFFF 0 = some 0x00CCBBAA ∧
    ∃ v : Nat,
      mif_word [0xAA, 0xBB, 0xCC] (([0xAA, 0xBB, 0xCC] : List Byte).length : Nat) 0 4 32
        0xFFFFFFFF 0 = some v ∧
      (∀ word2 : Nat, ((0 : Nat) : Int) = word2 * (32 / 8) →
        single_mif_word [0xAA, 0xBB, 0xCC] (([0xAA, 0xBB, 0xCC] : List Byte).length : Nat) 32
          0xFFFFFFFF word2 = some v) ∧
      v < 2 ^ 32 ∧
      ∀ k, k < 4 → lane_of v k
        = if 0 + k < ([0xAA, 0xBB, 0xCC] : List Byte).length
          then (([0xAA, 0xBB, 0xCC] : List Byte).getD (0 + k) 0).val else 0 :=
  ⟨by decide,
   boundary_word_is_zero_padded [0xAA, 0xBB, 0xCC] 0 4 32 0xFFFFFFFF 0 0
     (by decide) (by decide) (by decide) (by decide) (by decide)⟩

theorem collect_words_eq (f : Nat → Option Nat) (g : Nat → Nat) :
    ∀ n s, (∀ k, k < n → f (s + k) = some (g (s + k))) →
      collect_words f n s = some ((List.range n).map (fun k => g (s + k))) := by
  intro n
  induction n with
  | zero => intro s _; rfl
  | succ n ih =>
    intro s h
    have h0 : f s = some (g s) := h 0 (Nat.succ_pos n)
    have hrest : collect_words f n (s + 1)
        = some ((List.range n).map (fun k => g (s + 1 + k))) :=
      ih (s + 1) (fun k hk => by
        have := h (k + 1) (by omega)
        rw [show s + 1 + k = s + (k + 1) from by omega]
        exact this)
    rw [collect_words, h0]
    simp only []
    rw [hrest]
    simp only []
    rw [List.range_succ_eq_map, List.map_cons, List.map_map]
    congr 2
    apply List.map_congr_left
    intro k _
    show g (s + 1 + k) = g (s + (k + 1))
    rw [Nat.add_assoc, Nat.add_comm 1 k]

theorem collect_words_some (f : Nat → Option Nat) :
    ∀ n s words, collect_words f n s = some words →
      words.length = n ∧ ∀ k, k < n → f (s + k) = words.get? k := by
  intro n
  induction n with
  | zero =>
    intro s words h
    rw [collect_words] at h
    cases h
    exact ⟨rfl, fun k hk => absurd hk (Nat.not_lt_zero k)⟩
  | succ n ih =>
    intro s words h
    rw [collect_words] at h
    cases hf : f s with
    | none => rw [hf] at h; cases h
    | some wd =>
      rw [hf] at h
      simp only [] at h
      cases hr : collect_words f n (s + 1) with
      | none => rw [hr] at h; cases h
      | some rest =>
        rw [hr] at h
        simp only [] at h
        cases h
        obtain ⟨hl, hk⟩ := ih (s + 1) rest hr
        refine ⟨by simp [hl], ?_⟩
        intro k hk2
        cases k with
        | zero => simpa using hf
        | succ k =>
          have := hk k (by omega)
          rw [show s + (k + 1) = s + 1 + k from by omega, this]
          simp

theorem map_const_range (n v : Nat) :
    (List.range n).map (fun _ => v) = List.replicate n v := by
  induction n with
  | zero => rfl
  | succ n ih => rw [List.range_succ, List.map_append, ih, List.replicate_succ']; rfl

/-- The word count of line 104 for a size that is a valid `int`. -/
theorem words_per_block_eq (size word_size : Int)
    (hws : word_size = 8 ∨ word_size = 16 ∨ word_size = 32)
    (h1 : -2147483648 ≤ size) (h2 : size ≤ 2147483647) :
    words_per_block size word_size = some (Int.tdiv size (word_size / 8)) := by
  obtain ⟨hdiv, hb⟩ := int_div_word_size hws
  unfold words_per_block
  rw [hdiv]
  simp only []
  unfold int_div
  have hne : ¬ (word_size / 8 = 0) := by omega
  rw [if_neg hne]
  congr 1
  have hpos : (0 : Int) < word_size / 8 := by omega
  clear hdiv hne
  generalize word_size / 8 = b at hb hpos
  by_cases hs : 0 ≤ size
  · rw [Int.tdiv_eq_ediv hs (by omega)]
    rcases hb with h | h | h <;> subst h <;> apply wrap_int_of_range <;> omega
  · have hneg : Int.tdiv size b = -((-size) / b) := by
      rw [← Int.tdiv_eq_ediv (by omega) (by omega), Int.neg_tdiv, Int.neg_neg]
    rw [hneg]
    rcases hb with h | h | h <;> subst h <;> apply wrap_int_of_range <;> omega

theorem words_per_block_nonneg (size word_size : Int)
    (hws : word_size = 8 ∨ word_size = 16 ∨ word_size = 32)
    (h1 : 0 ≤ size) (h2 : size ≤ 2147483647) :
    words_per_block size word_size = some (size / (word_size / 8)) := by
  obtain ⟨_, hb⟩ := int_div_word_size hws
  rw [words_per_block_eq size word_size hws (by omega) h2,
    Int.tdiv_eq_ediv h1 (by omega)]

/-- Word `word` of a block whose byte range is a valid range of non-negative `int`s. -/
theorem mif_word_in_range (data : List Byte) (block_num block_size word_size : Int)
    (fill_pattern word : Nat)
    (hws : word_size = 8 ∨ word_size = 16 ∨ word_size = 32)
    (hlen : (data.length : Int) ≤ 2147483647)
    (hnum : 0 ≤ block_num) (hsize : 0 ≤ block_size)
    (hrange : block_num * block_size + block_size ≤ 2147483647)
    (hword : (word : Int) < block_size / (word_size / 8)) :
    mif_word data data.length block_num block_size word_size fill_pattern word
      = some (word_at_offset data
          ((block_num * block_size).toNat + word * (word_size / 8).toNat)
          (word_size / 8).toNat fill_pattern) := by
  obtain ⟨_, hb⟩ := int_div_word_size hws
  have hp : 0 ≤ block_num * block_size := Int.mul_nonneg hnum hsize
  have hoff : (((block_num * block_size).toNat + word * (word_size / 8).toNat : Nat) : Int)
      = block_num * block_size + word * (word_size / 8) := by
    rw [Nat.cast_add, Nat.cast_mul, Int.toNat_of_nonneg hp, Int.toNat_of_nonneg (by omega)]
  have hmax : (((block_num * block_size).toNat + word * (word_size / 8).toNat : Nat) : Int)
      ≤ 2147483647 := by
    rw [hoff]
    generalize block_num * block_size = p at hp hrange
    generalize word_size / 8 = b at hb hword
    rcases hb with h | h | h <;> subst h <;> omega
  rw [mif_word_eq data block_num block_size word_size fill_pattern word _ hws hlen hoff hmax]
  rfl

/-- The word sequence of a block whose byte range is a valid range of non-negative `int`s:
word `k` is the word at absolute byte offset `block_num * block_size + k * (word_size/8)`. -/
theorem mif_words_eq (data : List Byte) (block_num block_size word_size : Int)
    (fill_pattern : Nat)
    (hws : word_size = 8 ∨ word_size = 16 ∨ word_size = 32)
    (hlen : (data.length : Int) ≤ 2147483647)
    (hnum : 0 ≤ block_num) (hsize : 0 ≤ block_size)
    (hrange : block_num * block_size + block_size ≤ 2147483647) :
    mif_words data data.length block_num block_size word_size fill_pattern
      = some ((List.range (block_size / (word_size / 8)).toNat).map (fun k =>
          word_at_offset data ((block_num * block_size).toNat + k * (word_size / 8).toNat)
            (word_size / 8).toNat fill_pattern)) := by
  have hp : 0 ≤ block_num * block_size := Int.mul_nonneg hnum hsize
  unfold mif_words
  rw [words_per_block_nonneg block_size word_size hws hsize (by omega)]
  simp only []
  rw [collect_words_eq _ (fun k => word_at_offset data
      ((block_num * block_size).toNat + k * (word_size / 8).toNat)
      (word_size / 8).toNat fill_pattern)]
  · simp only [Nat.zero_add]
  · intro k hk
    rw [Nat.zero_add]
    exact mif_word_in_range data block_num block_size word_size fill_pattern k hws hlen hnum
      hsize hrange (by omega)

/-- Word `word` of the single file when `total_size` is a valid `int`. -/
theorem single_mif_word_in_range (data : List Byte) (total_size word_size : Int)
    (fill_pattern word : Nat)
    (hws : word_size = 8 ∨ word_size = 16 ∨ word_size = 32)
    (hlen : (data.length : Int) ≤ 2147483647)
    (hrange : total_size ≤ 2147483647)
    (hword : (word : Int) < total_size / (word_size / 8)) :
    single_mif_word data data.length word_size fill_pattern word
      = some (word_at_offset data (word * (word_size / 8).toNat)
          (word_size / 8).toNat fill_pattern) := by
  obtain ⟨_, hb⟩ := int_div_word_size hws
  have hoff : ((word * (word_size / 8).toNat : Nat) : Int) = word * (word_size / 8) := by
    rw [Nat.cast_mul, Int.toNat_of_nonneg (by omega)]
  have hmax : ((word * (word_size / 8).toNat : Nat) : Int) ≤ 2147483647 := by
    rw [hoff]
    generalize word_size / 8 = b at hb hword
    rcases hb with h | h | h <;> subst h <;> omega
  rw [single_mif_word_eq data word_size fill_pattern word _ hws hlen hoff hmax]
  rfl

/-- The word sequence of the single file when `total_size` is a valid non-negative `int`:
word `k` is the word at byte offset `k * (word_size/8)`. -/
theorem single_mif_words_eq (data : List Byte) (total_size word_size : Int)
    (fill_pattern : Nat)
    (hws : word_size = 8 ∨ word_size = 16 ∨ word_size = 32)
    (hlen : (data.length : Int) ≤ 2147483647)
    (hsize : 0 ≤ total_size) (hrange : total_size ≤ 2147483647) :
    single_mif_words data data.length total_size word_size fill_pattern
      = some ((List.range (total_size / (word_size / 8)).toNat).map (fun k =>
          word_at_offset data (k * (word_size / 8).toNat)
            (word_size / 8).toNat fill_pattern)) := by
  unfold single_mif_words
  rw [words_per_block_nonneg total_size word_size hws hsize hrange]
  simp only []
  rw [collect_words_eq _ (fun k => word_at_offset data (k * (word_size / 8).toNat)
      (word_size / 8).toNat fill_pattern)]
  · simp only [Nat.zero_add]
  · intro k hk
    rw [Nat.zero_add]
    exact single_mif_word_in_range data total_size word_size fill_pattern k hws hlen hrange
      (by omega)

theorem word_at_offset_beyond (data : List Byte) (off n fill_pattern : Nat)
    (h : data.length ≤ off) : word_at_offset data off n fill_pattern = fill_pattern := by
  unfold word_at_offset
  rw [if_neg (by omega)]

/-- With an empty buffer a word is either undefined (a read outside the buffer) or the fill
pattern. -/
theorem word_data_at_empty (off bpw : Int) (fill_pattern v : Nat)
    (hb : bpw = 1 ∨ bpw = 2 ∨ bpw = 4)
    (h1 : -2147483648 ≤ off) (h2 : off ≤ 2147483647)
    (h : word_data_at [] 0 off bpw fill_pattern = some v) : v = fill_pattern := by
  unfold word_data_at at h
  by_cases hneg : off < 0
  · rw [if_pos hneg] at h
    obtain ⟨n, hn⟩ : ∃ n, bpw.toNat = n + 1 := by
      rcases hb with h | h | h <;> subst h
      · exact ⟨0, rfl⟩
      · exact ⟨1, rfl⟩
      · exact ⟨3, rfl⟩
    rw [hn, pack_bytes] at h
    have hw : int_add off ((0 : Nat) : Int) = off := by
      unfold int_add
      rw [Nat.cast_zero, Int.add_zero]
      exact wrap_int_of_range h1 h2
    rw [hw, if_pos hneg] at h
    have hd : data_at [] off = none := by
      unfold data_at
      rw [if_neg (by omega)]
    rw [hd] at h
    cases h
  · rw [if_neg hneg] at h
    cases h
    rfl

/-- C3 (amended). For a block of positive size whose byte range fits an `int` and that lies
entirely beyond the buffer, every emitted word is the full 32-bit fill pattern, not masked to
the word size; it is `fill_pattern mod 2^word_size` when the fill pattern is below
`2^word_size`. In the single file every word starting at or beyond the buffer's end is the
full fill pattern too. -/
theorem block_beyond_buffer_is_unmasked_fill
    (data : List Byte) (block_num block_size word_size : Int) (fill_pattern : Nat)
    (hws : word_size = 8 ∨ word_size = 16 ∨ word_size = 32)
    (hlen : (data.length : Int) ≤ INT_MAX)
    (hsize : 0 < block_size)
    (hrange : block_num * block_size + block_size ≤ INT_MAX)
    (hbeyond : (data.length : Int) ≤ block_num * block_size) :
    mif_words data data.length block_num block_size word_size fill_pattern
        = some (List.replicate (block_size / (word_size / 8)).toNat fill_pattern) ∧
      (fill_pattern < 2 ^ word_size.toNat →
        mif_words data data.length block_num block_size word_size fill_pattern
          = some (List.replicate (block_size / (word_size / 8)).toNat
              (fill_pattern % 2 ^ word_size.toNat))) ∧
      ∀ word : Nat, (data.length : Int) ≤ word * (word_size / 8) →
        (word : Int) * (word_size / 8) ≤ INT_MAX →
        single_mif_word data data.length word_size fill_pattern word = some fill_pattern := by
  have hlen2 : (data.length : Int) ≤ 2147483647 := hlen
  have hrange2 : block_num * block_size + block_size ≤ 2147483647 := hrange
  have hnum : 0 ≤ block_num := by
    by_contra hc
    have : block_num * block_size < 0 := Int.mul_neg_of_neg_of_pos (by omega) hsize
    omega
  have hmain : mif_words data data.length block_num block_size word_size fill_pattern
      = some (List.replicate (block_size / (word_size / 8)).toNat fill_pattern) := by
    rw [mif_words_eq data block_num block_size word_size fill_pattern hws hlen2 hnum
      (by omega) hrange2, ← map_const_range]
    congr 1
    apply List.map_congr_left
    intro k _
    apply word_at_offset_beyond
    have : ((block_num * block_size).toNat : Int) = block_num * block_size :=
      Int.toNat_of_nonneg (by omega)
    omega
  refine ⟨hmain, ?_, ?_⟩
  · intro hfill
    rw [Nat.mod_eq_of_lt hfill]
    exact hmain
  · intro word hw hmax
    obtain ⟨_, hb⟩ := int_div_word_size hws
    have hoff : ((word * (word_size / 8).toNat : Nat) : Int) = word * (word_size / 8) := by
      rw [Nat.cast_mul, Int.toNat_of_nonneg (by omega)]
    have hmax2 : (word : Int) * (word_size / 8) ≤ 2147483647 := hmax
    rw [single_mif_word_eq data word_size fill_pattern word _ hws hlen2 hoff (by omega),
      if_neg (by omega)]

/-- Witness of C3 (amended): no data, block 1 of 4 bytes, 8-bit words, fill `0xDEADBEEF`. -/
theorem block_beyond_buffer_is_unmasked_fill_witness :
    mif_words [] 0 1 4 8 0xDEADBEEF
      = some [0xDEADBEEF, 0xDEADBEEF, 0xDEADBEEF, 0xDEADBEEF] :=
  (block_beyond_buffer_is_unmasked_fill [] 1 4 8 0xDEADBEEF
    (by decide) (by decide) (by decide) (by decide) (by decide)).1

/-- Counterexample to C3 as stated: with 8-bit words and fill pattern `0xDEADBEEF` the word
of a block beyond the (empty) buffer is `0xDEADBEEF`, not `0xDEADBEEF mod 2^8 = 0xEF`, and the
line written for it is `DEADBEEF`. -/
theorem fill_word_is_not_masked_to_word_size :
    mif_word [] 0 1 4 8 0xDEADBEEF 0 = some 0xDEADBEEF ∧
      mif_word [] 0 1 4 8 0xDEADBEEF 0 ≠ some (0xDEADBEEF % 2 ^ 8) ∧
      mif_file_text [] [] 0 1 4 8 0xDEADBEEF false true
        = some ["DEADBEEF".toList, "DEADBEEF".toList, "DEADBEEF".toList, "DEADBEEF".toList] := by
  decide

/-- C4. With an empty input image every word emitted for a block is the fill pattern, in both
generators and for every block index, block size, word size in {8,16,32} and fill pattern:
a word that is emitted is the fill pattern, and for a block whose byte range is a valid range
of non-negative `int`s all `size / (word_size/8)` words are emitted. -/
theorem empty_image_words_are_fill
    (block_num block_size total_size word_size : Int) (fill_pattern : Nat)
    (hws : word_size = 8 ∨ word_size = 16 ∨ word_size = 32) :
    (∀ word v : Nat,
        mif_word [] 0 block_num block_size word_size fill_pattern word = some v →
        v = fill_pattern) ∧
      (∀ word v : Nat,
        single_mif_word [] 0 word_size fill_pattern word = some v → v = fill_pattern) ∧
      (0 ≤ block_num → 0 ≤ block_size → block_num * block_size + block_size ≤ INT_MAX →
        mif_words [] 0 block_num block_size word_size fill_pattern
          = some (List.replicate (block_size / (word_size / 8)).toNat fill_pattern)) ∧
      (0 ≤ total_size → total_size ≤ INT_MAX →
        single_mif_words [] 0 total_size word_size fill_pattern
          = some (List.replicate (total_size / (word_size / 8)).toNat fill_pattern)) := by
  obtain ⟨hdiv, hb⟩ := int_div_word_size hws
  refine ⟨?_, ?_, ?_, ?_⟩
  · intro word v h
    unfold mif_word at h
    rw [hdiv] at h
    exact word_data_at_empty _ _ fill_pattern v hb (wrap_int_range _).1 (wrap_int_range _).2 h
  · intro word v h
    unfold single_mif_word at h
    rw [hdiv] at h
    exact word_data_at_empty _ _ fill_pattern v hb (wrap_int_range _).1 (wrap_int_range _).2 h
  · intro hnum hsize hrange
    have h := mif_words_eq [] block_num block_size word_size fill_pattern hws (by decide)
      hnum hsize hrange
    rw [← map_const_range]
    exact h
  · intro hsize hrange
    have h := single_mif_words_eq [] total_size word_size fill_pattern hws (by decide)
      hsize hrange
    rw [← map_const_range]
    exact h

/-- Witness of C4: empty image, block 3 of 8 bytes and a single file of 8 bytes, 32-bit words. -/
theorem empty_image_words_are_fill_witness :
    mif_words [] 0 3 8 32 0x13 = some [0x13, 0x13] ∧
      single_mif_words [] 0 8 32 0x13 = some [0x13, 0x13] :=
  ⟨(empty_image_words_are_fill 3 8 8 32 0x13 (by decide)).2.2.1
      (by decide) (by decide) (by decide),
   (empty_image_words_are_fill 3 8 8 32 0x13 (by decide)).2.2.2 (by decide) (by decide)⟩

theorem digit_char_upper_hex (d : Nat) (h : d < 16) : is_upper_hex (digit_char d) = true := by
  interval_cases d <;> decide

theorem digit_char_value (d : Nat) (h : d < 16) : hex_digit_value (digit_char d) = some d := by
  interval_cases d <;> decide

theorem digits_of_all_hex : ∀ (fuel n : Nat) (c : Char),
    c ∈ digits_of 16 fuel n → is_upper_hex c = true := by
  intro fuel
  induction fuel with
  | zero => intro n c h; simp [digits_of] at h
  | succ fuel ih =>
    intro n c h
    rw [digits_of] at h
    split at h
    · rw [List.mem_singleton] at h
      rw [h]
      exact digit_char_upper_hex n (by assumption)
    · rw [List.mem_append, List.mem_singleton] at h
      rcases h with h | h
      · exact ih _ c h
      · rw [h]
        exact digit_char_upper_hex _ (Nat.mod_lt _ (by decide))

theorem digits_of_length_pos : ∀ (fuel n : Nat), 1 ≤ fuel →
    1 ≤ (digits_of 16 fuel n).length := by
  intro fuel n h
  cases fuel with
  | zero => omega
  | succ fuel =>
    rw [digits_of]
    split
    · simp
    · simp

theorem digits_of_length_le : ∀ (fuel k n : Nat), 1 ≤ k → n < 16 ^ k →
    (digits_of 16 fuel n).length ≤ k := by
  intro fuel
  induction fuel with
  | zero => intro k n _ _; simp [digits_of]
  | succ fuel ih =>
    intro k n hk hn
    rw [digits_of]
    split
    · simpa using hk
    · rename_i h16
      obtain ⟨j, rfl⟩ : ∃ j, k = j + 1 := ⟨k - 1, by omega⟩
      have hj : 1 ≤ j := by
        by_contra hc
        have : j = 0 := by omega
        subst this
        simp at hn
        omega
      have hdiv : n / 16 < 16 ^ j := by
        rw [Nat.div_lt_iff_lt_mul (by decide)]
        rw [Nat.pow_succ] at hn
        exact hn
      have := ih j (n / 16) hj hdiv
      simp
      omega

theorem digits_of_length_gt : ∀ (fuel k n : Nat), 16 ^ k ≤ n → n < 16 ^ fuel →
    k < (digits_of 16 fuel n).length := by
  intro fuel
  induction fuel with
  | zero =>
    intro k n hk hn
    have : 0 < 16 ^ k := Nat.pow_pos (by decide)
    simp at hn
    omega
  | succ fuel ih =>
    intro k n hk hn
    rw [digits_of]
    split
    · rename_i h16
      cases k with
      | zero => simp
      | succ k =>
        have : 16 ^ (k + 1) ≥ 16 := by
          rw [Nat.pow_succ]
          have : 0 < 16 ^ k := Nat.pow_pos (by decide)
          omega
        omega
    · cases k with
      | zero => simp
      | succ k =>
        have hdiv : n / 16 < 16 ^ fuel := by
          rw [Nat.div_lt_iff_lt_mul (by decide)]
          rw [Nat.pow_succ] at hn
          exact hn
        have hle : 16 ^ k ≤ n / 16 := by
          rw [Nat.le_div_iff_mul_le (by decide)]
          rw [Nat.pow_succ] at hk
          exact hk
        have := ih k (n / 16) hle hdiv
        simp
        omega

theorem read_hex_from_append (a b : List Char) : ∀ acc : Nat,
    read_hex_from acc (a ++ b)
      = (read_hex_from acc a).bind (fun x => read_hex_from x b) := by
  induction a with
  | nil => intro acc; rfl
  | cons c cs ih =>
    intro acc
    rw [List.cons_append, read_hex_from, read_hex_from]
    cases hex_digit_value c with
    | none => rfl
    | some d => exact ih _

theorem read_hex_from_digits : ∀ (fuel n : Nat), n < 16 ^ fuel →
    read_hex_from 0 (digits_of 16 fuel n) = some n := by
  intro fuel
  induction fuel with
  | zero =>
    intro n hn
    have : n = 0 := by simp at hn; omega
    subst this
    rfl
  | succ fuel ih =>
    intro n hn
    rw [digits_of]
    split
    · rename_i h16
      rw [read_hex_from, digit_char_value n h16]
      simp [read_hex_from]
    · have hdiv : n / 16 < 16 ^ fuel := by
        rw [Nat.div_lt_iff_lt_mul (by decide)]
        rw [Nat.pow_succ] at hn
        exact hn
      rw [read_hex_from_append, ih (n / 16) hdiv]
      simp only [Option.bind]
      rw [read_hex_from, digit_char_value _ (Nat.mod_lt _ (by decide))]
      simp only [read_hex_from]
      congr 1
      omega

theorem read_hex_from_zeros (k : Nat) (s : List Char) :
    read_hex_from 0 (List.replicate k '0' ++ s) = read_hex_from 0 s := by
  induction k with
  | zero => rfl
  | succ k ih =>
    rw [List.replicate_succ, List.cons_append, read_hex_from]
    have : hex_digit_value '0' = some 0 := by decide
    rw [this]
    exact ih

theorem u32_lt_pow (v : Nat) : v % 4294967296 < 16 ^ 8 := by
  have : (16 : Nat) ^ 8 = 4294967296 := by norm_num
  rw [this]
  exact Nat.mod_lt _ (by decide)

theorem printf_X_length_8 (v : Nat) : (printf_X 8 v).length = 8 := by
  have h1 := digits_of_length_le 8 8 (v % 4294967296) (by decide) (u32_lt_pow v)
  unfold printf_X
  simp only [List.length_append, List.length_replicate]
  omega

theorem printf_X_length_4 (v : Nat) :
    4 ≤ (printf_X 4 v).length ∧
      (v % 4294967296 < 65536 → (printf_X 4 v).length = 4) ∧
      (65536 ≤ v % 4294967296 → 4 < (printf_X 4 v).length) := by
  unfold printf_X
  simp only [List.length_append, List.length_replicate]
  refine ⟨by omega, ?_, ?_⟩
  · intro h
    have := digits_of_length_le 8 4 (v % 4294967296) (by decide) (by norm_num; exact h)
    omega
  · intro h
    have := digits_of_length_gt 8 4 (v % 4294967296) (by norm_num; exact h) (u32_lt_pow v)
    omega

theorem printf_X_all_hex (width v : Nat) (c : Char) (h : c ∈ printf_X width v) :
    is_upper_hex c = true := by
  unfold printf_X at h
  simp only [List.mem_append, List.mem_replicate] at h
  rcases h with ⟨_, h⟩ | h
  · rw [h]; decide
  · exact digits_of_all_hex 8 _ c h

theorem read_hex_of_ne_nil (s : List Char) (h : s ≠ []) : read_hex s = read_hex_from 0 s := by
  cases s with
  | nil => exact absurd rfl h
  | cons c cs => rfl

theorem printf_X_ne_nil (width v : Nat) : printf_X width v ≠ [] := by
  have := digits_of_length_pos 8 (v % 4294967296) (by decide)
  intro h
  have h2 : (printf_X width v).length = 0 := by rw [h]; rfl
  unfold printf_X at h2
  simp only [List.length_append, List.length_replicate] at h2
  omega

/-- Reading back what `%0<width>X` wrote gives the `unsigned int` that was written. -/
theorem read_hex_printf_X (width v : Nat) :
    read_hex (printf_X width v) = some (v % 4294967296) := by
  rw [read_hex_of_ne_nil _ (printf_X_ne_nil width v)]
  unfold printf_X
  simp only []
  rw [read_hex_from_zeros]
  exact read_hex_from_digits 8 _ (u32_lt_pow v)

theorem upper_hex_ne_space (c : Char) (h : is_upper_hex c = true) : (c != ' ') = true := by
  rw [bne_iff_ne]
  intro hc
  rw [hc] at h
  revert h
  decide

theorem upper_hex_ne_semicolon (c : Char) (h : is_upper_hex c = true) : (c != ';') = true := by
  rw [bne_iff_ne]
  intro hc
  rw [hc] at h
  revert h
  decide

theorem takeWhile_append_stop {α : Type} (p : α → Bool) (a b : List α) (x : α)
    (ha : ∀ c, c ∈ a → p c = true) (hx : p x = false) :
    (a ++ x :: b).takeWhile p = a ∧ (a ++ x :: b).dropWhile p = x :: b := by
  induction a with
  | nil => simp [List.takeWhile, List.dropWhile, hx]
  | cons c cs ih =>
    have hc : p c = true := ha c (List.mem_cons_self c cs)
    have ih2 := ih (fun d hd => ha d (List.mem_cons_of_mem c hd))
    simp [List.takeWhile, List.dropWhile, hc, ih2.1, ih2.2]

/-- Parsing a content line written by line 149 (or 203) recovers the address and the data
that were written. -/
theorem parse_mif_line (word word_data : Nat) :
    parse_content_line (mif_line word word_data)
      = some (word % 4294967296, word_data % 4294967296) := by
  have hshape : mif_line word word_data
      = printf_X 4 word ++ ' ' :: (':' :: ' ' :: (printf_X 8 word_data ++ ';' :: [])) := by
    unfold mif_line
    simp
  have h1 := takeWhile_append_stop (fun c => c != ' ') (printf_X 4 word)
    (':' :: ' ' :: (printf_X 8 word_data ++ ';' :: [])) ' '
    (fun c hc => upper_hex_ne_space c (printf_X_all_hex 4 word c hc)) (by decide)
  have h2 := takeWhile_append_stop (fun c => c != ';') (printf_X 8 word_data) [] ';'
    (fun c hc => upper_hex_ne_semicolon c (printf_X_all_hex 8 word_data c hc)) (by decide)
  unfold parse_content_line
  rw [hshape, h1.1, h1.2]
  simp only []
  rw [h2.1, h2.2]
  simp only []
  rw [read_hex_printf_X, read_hex_printf_X]

theorem pack_bytes_lt (data : List Byte) (data_size byte_offset : Int) :
    ∀ (n byte acc v : Nat), acc < 4294967296 →
      pack_bytes data data_size byte_offset n byte acc = some v → v < 4294967296 := by
  intro n
  induction n with
  | zero =>
    intro byte acc v hacc h
    rw [pack_bytes] at h
    cases h
    exact hacc
  | succ n ih =>
    intro byte acc v hacc h
    rw [pack_bytes] at h
    split at h
    · cases hd : data_at data (int_add byte_offset byte) with
      | none => rw [hd] at h; cases h
      | some b =>
        rw [hd] at h
        simp only [] at h
        refine ih (byte + 1) _ v ?_ h
        have hs : shl_u32 b byte < 2 ^ 32 := by
          unfold shl_u32
          exact Nat.mod_lt _ (by decide)
        have ha : acc < 2 ^ 32 := hacc
        exact Nat.or_lt_two_pow ha hs
    · cases h
      exact hacc

theorem word_data_at_lt (data : List Byte) (data_size byte_offset bpw : Int)
    (fill_pattern v : Nat) (hfill : fill_pattern < 4294967296)
    (h : word_data_at data data_size byte_offset bpw fill_pattern = some v) :
    v < 4294967296 := by
  unfold word_data_at at h
  split at h
  · exact pack_bytes_lt data data_size byte_offset _ 0 0 v (by decide) h
  · cases h
    exact hfill

theorem mif_word_lt (data : List Byte) (data_size block_num block_size word_size : Int)
    (fill_pattern word v : Nat) (hfill : fill_pattern < 4294967296)
    (h : mif_word data data_size block_num block_size word_size fill_pattern word = some v) :
    v < 4294967296 := by
  unfold mif_word at h
  cases hd : int_div word_size 8 with
  | none => rw [hd] at h; cases h
  | some bpw =>
    rw [hd] at h
    exact word_data_at_lt data data_size _ bpw fill_pattern v hfill h

theorem single_mif_word_lt (data : List Byte) (data_size word_size : Int)
    (fill_pattern word v : Nat) (hfill : fill_pattern < 4294967296)
    (h : single_mif_word data data_size word_size fill_pattern word = some v) :
    v < 4294967296 := by
  unfold single_mif_word at h
  cases hd : int_div word_size 8 with
  | none => rw [hd] at h; cases h
  | some bpw =>
    rw [hd] at h
    exact word_data_at_lt data data_size _ bpw fill_pattern v hfill h

/-- Every collected word is a value the loop body produced, at its own index. -/
theorem collect_words_get (f : Nat → Option Nat) (n : Nat) (words : List Nat)
    (h : collect_words f n 0 = some words) (k wd : Nat) (hk : words.get? k = some wd) :
    k < n ∧ f k = some wd := by
  obtain ⟨hl, hf⟩ := collect_words_some f n 0 words h
  have hkn : k < n := by
    rw [← hl]
    by_contra hc
    rw [List.get?_eq_none.mpr (by omega)] at hk
    cases hk
  refine ⟨hkn, ?_⟩
  have := hf k hkn
  rw [Nat.zero_add] at this
  rw [this, hk]

/-- The words of a block exist exactly when its word count does, and there are that many. -/
theorem mif_words_some (data : List Byte) (data_size block_num block_size word_size : Int)
    (fill_pattern : Nat) (words : List Nat)
    (h : mif_words data data_size block_num block_size word_size fill_pattern = some words) :
    ∃ wpb : Int, words_per_block block_size word_size = some wpb ∧
      words.length = wpb.toNat ∧
      ∀ k wd, words.get? k = some wd →
        mif_word data data_size block_num block_size word_size fill_pattern k = some wd := by
  unfold mif_words at h
  cases hw : words_per_block block_size word_size with
  | none => rw [hw] at h; cases h
  | some wpb =>
    rw [hw] at h
    simp only [] at h
    refine ⟨wpb, rfl, (collect_words_some _ _ 0 words h).1, ?_⟩
    intro k wd hk
    exact (collect_words_get _ _ words h k wd hk).2

theorem single_mif_words_some (data : List Byte) (data_size total_size word_size : Int)
    (fill_pattern : Nat) (words : List Nat)
    (h : single_mif_words data data_size total_size word_size fill_pattern = some words) :
    ∃ total_words : Int, words_per_block total_size word_size = some total_words ∧
      words.length = total_words.toNat ∧
      ∀ k wd, words.get? k = some wd →
        single_mif_word data data_size word_size fill_pattern k = some wd := by
  unfold single_mif_words at h
  cases hw : words_per_block total_size word_size with
  | none => rw [hw] at h; cases h
  | some wpb =>
    rw [hw] at h
    simp only [] at h
    refine ⟨wpb, rfl, (collect_words_some _ _ 0 words h).1, ?_⟩
    intro k wd hk
    exact (collect_words_get _ _ words h k wd hk).2

/-- The text of a block file in terms of its word sequence. -/
theorem mif_file_text_of_words (now : Line) (data : List Byte)
    (data_size block_num block_size word_size : Int) (fill_pattern : Nat)
    (verbose hex_format : Bool) (words : List Nat) (wpb : Int)
    (hw : words_per_block block_size word_size = some wpb)
    (h : mif_words data data_size block_num block_size word_size fill_pattern = some words) :
    mif_file_text now data data_size block_num block_size word_size fill_pattern
        verbose hex_format
      = some (if hex_format then
          (if verbose then [hex_comment_line block_num] else []) ++ hex_lines words
        else mif_header now block_num block_size wpb word_size fill_pattern
          ++ content_lines 0 words ++ ["END;".toList]) := by
  unfold mif_file_text
  rw [hw]
  simp only []
  rw [h]
  simp only []
  cases hex_format <;> rfl

/-- The text of the single file in terms of its word sequence. -/
theorem single_mif_file_text_of_words (now : Line) (data : List Byte)
    (data_size total_size word_size : Int) (fill_pattern : Nat)
    (words : List Nat) (total_words : Int)
    (hw : words_per_block total_size word_size = some total_words)
    (h : single_mif_words data data_size total_size word_size fill_pattern = some words) :
    single_mif_file_text now data data_size total_size word_size fill_pattern
      = some (single_mif_header now total_size total_words word_size fill_pattern
          ++ content_lines 0 words ++ ["END;".toList]) := by
  unfold single_mif_file_text
  rw [hw]
  simp only []
  rw [h]

theorem hex_lines_get (words : List Nat) (k wd : Nat) (h : words.get? k = some wd) :
    (hex_lines words).get? k = some (hex_line wd) := by
  unfold hex_lines
  rw [List.get?_eq_getElem?] at h ⊢
  rw [List.getElem?_map, h]
  rfl

/-- C5 (amended). In hex-stream mode the text of a block is, with the verbose flag off,
exactly `word_count = block_size / (word_size/8)` lines, line `k` being word `k` as exactly
8 uppercase hexadecimal characters, with no header, no address column and no trailing marker;
with the verbose flag on, the same lines follow one comment line
`// Simple hex format for block N`. The text exists for every block whose byte range is a
valid range of non-negative `int`s. -/
theorem hex_stream_text_format (now : Line) (data : List Byte)
    (data_size block_num block_size word_size : Int) (fill_pattern : Nat) (verbose : Bool)
    (hws : word_size = 8 ∨ word_size = 16 ∨ word_size = 32)
    (hfill : fill_pattern < 2 ^ 32)
    (hsize : 0 ≤ block_size) (hmax : block_size ≤ INT_MAX) :
    (∀ words : List Nat,
        mif_words data data_size block_num block_size word_size fill_pattern = some words →
        mif_file_text now data data_size block_num block_size word_size fill_pattern
            verbose true
          = some ((if verbose then [hex_comment_line block_num] else []) ++ hex_lines words) ∧
        (words.length : Int) = block_size / (word_size / 8) ∧
        (hex_lines words).length = words.length ∧
        ∀ k wd, words.get? k = some wd →
          (hex_lines words).get? k = some (hex_line wd) ∧
          (hex_line wd).length = 8 ∧
          (∀ c, c ∈ hex_line wd → is_upper_hex c = true) ∧
          read_hex (hex_line wd) = some wd) ∧
      (data_size = data.length → (data.length : Int) ≤ INT_MAX → 0 ≤ block_num →
        block_num * block_size + block_size ≤ INT_MAX →
        ∃ words : List Nat,
          mif_words data data_size block_num block_size word_size fill_pattern
            = some words) := by
  constructor
  · intro words hwords
    obtain ⟨wpb, hw, hlen, hget⟩ := mif_words_some data data_size block_num block_size
      word_size fill_pattern words hwords
    have hw2 := words_per_block_nonneg block_size word_size hws hsize hmax
    rw [hw] at hw2
    cases hw2
    obtain ⟨_, hb⟩ := int_div_word_size hws
    refine ⟨?_, ?_, ?_, ?_⟩
    · rw [mif_file_text_of_words now data data_size block_num block_size word_size
        fill_pattern verbose true words _ hw hwords]
      rfl
    · rw [hlen]
      generalize word_size / 8 = b at hb
      rcases hb with h | h | h <;> subst h <;> omega
    · unfold hex_lines
      rw [List.length_map]
    · intro k wd hk
      have hlt : wd < 4294967296 := mif_word_lt data data_size block_num block_size word_size
        fill_pattern k wd hfill (hget k wd hk)
      refine ⟨hex_lines_get words k wd hk, printf_X_length_8 wd,
        fun c hc => printf_X_all_hex 8 wd c hc, ?_⟩
      unfold hex_line
      rw [read_hex_printf_X, Nat.mod_eq_of_lt hlt]
  · intro hds hlen hnum hrange
    subst hds
    exact ⟨_, mif_words_eq data block_num block_size word_size fill_pattern hws hlen hnum hsize
      hrange⟩

/-- Witness of C5 (amended): image `01 02 03 04 05`, block 0 of 8 bytes, 32-bit words. -/
theorem hex_stream_text_format_witness :
    mif_file_text [] [1, 2, 3, 4, 5] 5 0 8 32 0x13 false true
        = some ["04030201".toList, "00000005".toList] ∧
      mif_file_text [] [1, 2, 3, 4, 5] 5 0 8 32 0x13 true true
        = some ["// Simple hex format for block 0".toList, "04030201".toList,
            "00000005".toList] :=
  ⟨((hex_stream_text_format [] [1, 2, 3, 4, 5] 5 0 8 32 0x13 false
      (by decide) (by decide) (by decide) (by decide)).1 [0x04030201, 5] (by decide)).1,
   ((hex_stream_text_format [] [1, 2, 3, 4, 5] 5 0 8 32 0x13 true
      (by decide) (by decide) (by decide) (by decide)).1 [0x04030201, 5] (by decide)).1⟩

/-- Counterexample to C5 as stated: with the verbose flag on, the hex-stream text of a block
of one word has two lines, and the first is a header line, not 8 hexadecimal characters. -/
theorem verbose_hex_stream_has_comment_line :
    words_per_block 4 32 = some 1 ∧
      mif_file_text [] [1, 2, 3, 4] 4 0 4 32 0x13 true true
        = some ["// Simple hex format for block 0".toList, "04030201".toList] := by
  decide

theorem printf_X_field (width v : Nat) (hw : 1 ≤ width) (hv : v < 4294967296) :
    is_hex_field (printf_X width v) width v := by
  have hmod : v % 4294967296 = v := Nat.mod_eq_of_lt hv
  refine ⟨fun c hc => printf_X_all_hex width v c hc, ?_, ?_, ?_⟩
  · rw [read_hex_printf_X, hmod]
  · unfold printf_X
    simp only [List.length_append, List.length_replicate]
    omega
  · have hlen : (printf_X width v).length
        = width - (digits_of 16 8 v).length + (digits_of 16 8 v).length := by
      unfold printf_X
      simp only [List.length_append, List.length_replicate, hmod]
    rw [hlen]
    intro hlt
    by_contra hc
    have hk : 1 ≤ width - (digits_of 16 8 v).length + (digits_of 16 8 v).length - 1 := by
      omega
    have := digits_of_length_le 8 _ v hk (by omega)
    omega

theorem hex_field_exact (s : List Char) (width value : Nat)
    (h : is_hex_field s width value) (hv : value < 16 ^ width) : s.length = width := by
  obtain ⟨_, _, h3, h4⟩ := h
  by_contra hc
  have hlt : width < s.length := by omega
  have h5 := h4 hlt
  have h6 : 16 ^ width ≤ 16 ^ (s.length - 1) := Nat.pow_le_pow_right (by decide) (by omega)
  omega

theorem content_lines_get : ∀ (words : List Nat) (s k wd : Nat),
    words.get? k = some wd → (content_lines s words).get? k = some (mif_line (s + k) wd) := by
  intro words
  induction words with
  | nil => intro s k wd h; simp at h
  | cons w rest ih =>
    intro s k wd h
    cases k with
    | zero =>
      simp at h
      subst h
      simp [content_lines]
    | succ k =>
      simp at h
      have := ih (s + 1) k wd (by simpa using h)
      simp [content_lines]
      rw [show s + (k + 1) = s + 1 + k from by omega]
      simpa using this

theorem content_lines_length : ∀ (words : List Nat) (s : Nat),
    (content_lines s words).length = words.length := by
  intro words
  induction words with
  | nil => intro s; rfl
  | cons w rest ih => intro s; simp [content_lines, ih]

theorem mif_header_length (now : Line) (a b c d : Int) (f : Nat) :
    (mif_header now a b c d f).length = 12 := rfl

theorem single_mif_header_length (now : Line) (a b c : Int) (f : Nat) :
    (single_mif_header now a b c f).length = 12 := rfl

/-- Line `12 + k` of a structured text is the content line of word `k`. -/
theorem structured_text_get (header : List Line) (words : List Nat) (k wd : Nat)
    (hh : header.length = 12) (h : words.get? k = some wd) :
    (header ++ content_lines 0 words ++ ["END;".toList]).get? (12 + k)
      = some (mif_line k wd) := by
  have hk : k < words.length := by
    by_contra hc
    rw [List.get?_eq_none.mpr (by omega)] at h
    cases h
  have h1 := content_lines_get words 0 k wd h
  rw [Nat.zero_add] at h1
  rw [List.append_assoc, List.get?_eq_getElem?, List.getElem?_append_right (by omega), hh,
    show 12 + k - 12 = k from by omega,
    List.getElem?_append_left (by rw [content_lines_length]; exact hk),
    ← List.get?_eq_getElem?]
  exact h1

theorem words_per_block_le (size word_size wpb : Int)
    (h : words_per_block size word_size = some wpb) : wpb ≤ 2147483647 := by
  unfold words_per_block at h
  cases hd : int_div word_size 8 with
  | none => rw [hd] at h; cases h
  | some bpw =>
    rw [hd] at h
    simp only [] at h
    unfold int_div at h
    split at h
    · cases h
    · cases h
      exact (wrap_int_range _).2

theorem field_props (k wd : Nat) (hk : k < 4294967296) (hwd : wd < 4294967296) :
    is_hex_field (printf_X 4 k) 4 k ∧
      (k < 65536 → (printf_X 4 k).length = 4) ∧
      (65536 ≤ k → 4 < (printf_X 4 k).length) ∧
      is_hex_field (printf_X 8 wd) 8 wd ∧ (printf_X 8 wd).length = 8 := by
  have h4 := printf_X_length_4 k
  rw [Nat.mod_eq_of_lt hk] at h4
  exact ⟨printf_X_field 4 k (by decide) hk, h4.2.1, h4.2.2,
    printf_X_field 8 wd (by decide) hwd, printf_X_length_8 wd⟩

/-- C6 (amended). In structured mode the content line of word index `k`, in a block file and
in the single file, is exactly `ADDR : DATA;` where DATA is the word value in uppercase
hexadecimal zero-padded to exactly 8 digits, whatever the word size, and ADDR is `k` in
uppercase hexadecimal zero-padded to at least 4 digits: exactly 4 digits when `k < 65536`,
and the 5 to 8 digits of `k` when `k >= 65536`. -/
theorem content_line_format (now : Line) (data : List Byte)
    (data_size block_num block_size total_size word_size : Int) (fill_pattern : Nat)
    (verbose : Bool) (hfill : fill_pattern < 2 ^ 32) :
    (∀ (words : List Nat) (text : List Line),
        mif_words data data_size block_num block_size word_size fill_pattern = some words →
        mif_file_text now data data_size block_num block_size word_size fill_pattern
          verbose false = some text →
        ∀ k wd, words.get? k = some wd →
          text.get? (12 + k)
            = some (printf_X 4 k ++ " : ".toList ++ printf_X 8 wd ++ ";".toList) ∧
          is_hex_field (printf_X 4 k) 4 k ∧
          (k < 65536 → (printf_X 4 k).length = 4) ∧
          (65536 ≤ k → 4 < (printf_X 4 k).length) ∧
          is_hex_field (printf_X 8 wd) 8 wd ∧ (printf_X 8 wd).length = 8) ∧
      (∀ (words : List Nat) (text : List Line),
        single_mif_words data data_size total_size word_size fill_pattern = some words →
        single_mif_file_text now data data_size total_size word_size fill_pattern
          = some text →
        ∀ k wd, words.get? k = some wd →
          text.get? (12 + k)
            = some (printf_X 4 k ++ " : ".toList ++ printf_X 8 wd ++ ";".toList) ∧
          is_hex_field (printf_X 4 k) 4 k ∧
          (k < 65536 → (printf_X 4 k).length = 4) ∧
          (65536 ≤ k → 4 < (printf_X 4 k).length) ∧
          is_hex_field (printf_X 8 wd) 8 wd ∧ (printf_X 8 wd).length = 8) := by
  constructor
  · intro words text hwords htext k wd hk
    obtain ⟨wpb, hw, hlen, hget⟩ := mif_words_some data data_size block_num block_size
      word_size fill_pattern words hwords
    rw [mif_file_text_of_words now data data_size block_num block_size word_size
      fill_pattern verbose false words wpb hw hwords] at htext
    cases htext
    have hkl : k < words.length := by
      by_contra hc
      rw [List.get?_eq_none.mpr (by omega)] at hk
      cases hk
    have hwl := words_per_block_le block_size word_size wpb hw
    refine ⟨structured_text_get _ words k wd (mif_header_length _ _ _ _ _ _) hk, ?_⟩
    exact field_props k wd (by omega)
      (mif_word_lt data data_size block_num block_size word_size fill_pattern k wd hfill
        (hget k wd hk))
  · intro words text hwords htext k wd hk
    obtain ⟨wpb, hw, hlen, hget⟩ := single_mif_words_some data data_size total_size
      word_size fill_pattern words hwords
    rw [single_mif_file_text_of_words now data data_size total_size word_size
      fill_pattern words wpb hw hwords] at htext
    cases htext
    have hkl : k < words.length := by
      by_contra hc
      rw [List.get?_eq_none.mpr (by omega)] at hk
      cases hk
    have hwl := words_per_block_le total_size word_size wpb hw
    refine ⟨structured_text_get _ words k wd (single_mif_header_length _ _ _ _ _) hk, ?_⟩
    exact field_props k wd (by omega)
      (single_mif_word_lt data data_size word_size fill_pattern k wd hfill (hget k wd hk))

/-- Witness of C6 (amended): image `01 02 03 04 05`, block 0 of 8 bytes, 32-bit words; the
line of word 1 is `0001 : 00000005;`. -/
theorem content_line_format_witness :
    (mif_file_text [] [1, 2, 3, 4, 5] 5 0 8 32 0x13 false false).bind
        (fun text => text.get? (12 + 1))
      = some "0001 : 00000005;".toList ∧
    ∀ text : List Line,
      mif_file_text [] [1, 2, 3, 4, 5] 5 0 8 32 0x13 false false = some text →
      text.get? (12 + 1)
        = some (printf_X 4 1 ++ " : ".toList ++ printf_X 8 5 ++ ";".toList) :=
  ⟨by decide, fun text h =>
    ((content_line_format [] [1, 2, 3, 4, 5] 5 0 8 8 32 0x13 false (by decide)).1
      [0x04030201, 5] text (by decide) h 1 5 (by decide)).1⟩

theorem range_map_get (n k : Nat) (g : Nat → Nat) (h : k < n) :
    ((List.range n).map g).get? k = some (g k) := by
  rw [List.get?_eq_getElem?, List.getElem?_map, List.getElem?_range h]
  rfl

/-- Counterexample to C6 as stated: in a single file of 65537 8-bit words the content line of
word index 65536 is `10000 : 00000013;`, with a 5-digit address. -/
theorem address_field_exceeds_four_digits :
    ∃ text : List Line,
      single_mif_file_text [] [] 0 65537 8 0x13 = some text ∧
      text.get? (12 + 65536) = some "10000 : 00000013;".toList := by
  have hw : single_mif_words [] 0 65537 8 0x13
      = some ((List.range 65537).map (fun k => word_at_offset [] (k * 1) 1 0x13)) :=
    single_mif_words_eq [] 65537 8 0x13 (by decide) (by decide) (by decide) (by decide)
  have ht := single_mif_file_text_of_words [] [] 0 65537 8 0x13 _ 65537 (by decide) hw
  refine ⟨_, ht, ?_⟩
  rw [structured_text_get _ _ 65536 0x13 (single_mif_header_length _ _ _ _ _)
    (range_map_get 65537 65536 _ (by decide))]
  decide

theorem indexed_from_length : ∀ (words : List Nat) (s : Nat),
    (indexed_from s words).length = words.length := by
  intro words
  induction words with
  | nil => intro s; rfl
  | cons w rest ih => intro s; simp [indexed_from, ih]

theorem indexed_from_get : ∀ (words : List Nat) (s k wd : Nat),
    words.get? k = some wd → (indexed_from s words).get? k = some (s + k, wd) := by
  intro words
  induction words with
  | nil => intro s k wd h; simp at h
  | cons w rest ih =>
    intro s k wd h
    cases k with
    | zero =>
      simp at h
      subst h
      simp [indexed_from]
    | succ k =>
      have := ih (s + 1) k wd (by simpa using h)
      simp [indexed_from]
      rw [show s + (k + 1) = s + 1 + k from by omega]
      simpa using this

/-- Parsing the content lines of a word sequence gives back the sequence with its indices. -/
theorem parse_content_lines : ∀ (words : List Nat) (s : Nat),
    s + words.length ≤ 4294967296 → (∀ wd, wd ∈ words → wd < 4294967296) →
    parse_lines (content_lines s words) = some (indexed_from s words) := by
  intro words
  induction words with
  | nil => intro s _ _; rfl
  | cons w rest ih =>
    intro s hs hw
    have hlen : (w :: rest).length = rest.length + 1 := rfl
    rw [hlen] at hs
    rw [content_lines, parse_lines, parse_mif_line]
    simp only []
    rw [ih (s + 1) (by omega) (fun wd h => hw wd (List.mem_cons_of_mem w h))]
    simp only []
    rw [Nat.mod_eq_of_lt (by omega), Nat.mod_eq_of_lt (hw w (List.mem_cons_self w rest))]
    rfl

theorem mif_line_ne_end (k wd : Nat) : (mif_line k wd != "END;".toList) = true := by
  rw [bne_iff_ne]
  intro h
  have h1 : (mif_line k wd).length = ("END;".toList).length := by rw [h]
  have h4 := (printf_X_length_4 k).1
  unfold mif_line at h1
  simp only [List.length_append] at h1
  have h5 : ("END;".toList).length = 4 := rfl
  have h6 : (" : ".toList).length = 3 := rfl
  omega

theorem content_lines_ne_end : ∀ (words : List Nat) (s : Nat) (l : Line),
    l ∈ content_lines s words → (l != "END;".toList) = true := by
  intro words
  induction words with
  | nil => intro s l h; simp [content_lines] at h
  | cons w rest ih =>
    intro s l h
    rw [content_lines, List.mem_cons] at h
    rcases h with h | h
    · rw [h]; exact mif_line_ne_end s w
    · exact ih (s + 1) l h

theorem begin_not_in_prefix (l : Line) (c : Char) (rest : Line) (hl : l = c :: rest)
    (hc : c ≠ 'B') : (l != "BEGIN".toList) = true := by
  rw [bne_iff_ne, hl]
  intro h
  have : c = 'B' := (List.cons.inj h).1
  exact hc this

theorem content_section_of (pre content : List Line)
    (hpre : ∀ l, l ∈ pre → (l != "BEGIN".toList) = true)
    (hcontent : ∀ l, l ∈ content → (l != "END;".toList) = true) :
    content_section (pre ++ "BEGIN".toList :: (content ++ ["END;".toList])) = content := by
  unfold content_section
  rw [(takeWhile_append_stop (fun l => l != "BEGIN".toList) pre
    (content ++ ["END;".toList]) "BEGIN".toList hpre (by decide)).2]
  rw [List.drop_one, List.tail_cons]
  exact (takeWhile_append_stop (fun l => l != "END;".toList) content [] "END;".toList
    hcontent (by decide)).1

theorem head_ne_begin (l : Line) (h : (l.head? != some 'B') = true) :
    (l != "BEGIN".toList) = true := by
  rw [bne_iff_ne] at h ⊢
  intro hl
  rw [hl] at h
  exact h rfl

theorem mif_header_split (now : Line) (a b c d : Int) (f : Nat) :
    mif_header now a b c d f = (mif_header now a b c d f).take 11 ++ ["BEGIN".toList] ∧
      ∀ l, l ∈ (mif_header now a b c d f).take 11 → (l != "BEGIN".toList) = true := by
  refine ⟨rfl, ?_⟩
  have hall : ((mif_header now a b c d f).take 11).all
      (fun l => l.head? != some 'B') = true := rfl
  intro l hl
  exact head_ne_begin l (List.all_eq_true.mp hall l hl)

theorem single_mif_header_split (now : Line) (a b c : Int) (f : Nat) :
    single_mif_header now a b c f
        = (single_mif_header now a b c f).take 11 ++ ["BEGIN".toList] ∧
      ∀ l, l ∈ (single_mif_header now a b c f).take 11 → (l != "BEGIN".toList) = true := by
  refine ⟨rfl, ?_⟩
  have hall : ((single_mif_header now a b c f).take 11).all
      (fun l => l.head? != some 'B') = true := rfl
  intro l hl
  exact head_ne_begin l (List.all_eq_true.mp hall l hl)

/-- Parsing the content section of a structured text with a 12-line header ending in `BEGIN`
recovers the word sequence with its indices. -/
theorem parse_structured (header : List Line) (words : List Nat)
    (hsplit : header = header.take 11 ++ ["BEGIN".toList] ∧
      ∀ l, l ∈ header.take 11 → (l != "BEGIN".toList) = true)
    (hlen : words.length ≤ 4294967296) (hw : ∀ wd, wd ∈ words → wd < 4294967296) :
    parse_content (header ++ content_lines 0 words ++ ["END;".toList])
      = some (indexed_from 0 words) := by
  unfold parse_content
  have hshape : header ++ content_lines 0 words ++ ["END;".toList]
      = header.take 11 ++ "BEGIN".toList :: (content_lines 0 words ++ ["END;".toList]) := by
    conv => lhs; rw [hsplit.1]
    simp
  rw [hshape, content_section_of _ _ hsplit.2 (content_lines_ne_end words 0)]
  exact parse_content_lines words 0 (by omega) hw

theorem mem_get (words : List Nat) (wd : Nat) (h : wd ∈ words) :
    ∃ k, words.get? k = some wd := by
  obtain ⟨k, hk, he⟩ := List.mem_iff_getElem.mp h
  exact ⟨k, by rw [List.get?_eq_getElem?, List.getElem?_eq_getElem hk, he]⟩

theorem word_count_eq (size word_size wpb : Int) (n : Nat)
    (hws : word_size = 8 ∨ word_size = 16 ∨ word_size = 32)
    (hw : words_per_block size word_size = some wpb) (hn : n = wpb.toNat)
    (hsize : 0 ≤ size) (hmax : size ≤ INT_MAX) : (n : Int) = size / (word_size / 8) := by
  have hw2 := words_per_block_nonneg size word_size hws hsize hmax
  rw [hw] at hw2
  cases hw2
  obtain ⟨_, hb⟩ := int_div_word_size hws
  rw [hn]
  generalize word_size / 8 = b at hb
  rcases hb with h | h | h <;> subst h <;> omega

/-- C7. Round trip: parsing the content section of a structured output, block file or single
file, recovers exactly the word sequence of the packer: the parsed list has as many entries
as there are words, `word_count` of them, and entry `i` has address `i` and the `i`-th packed
word as data. Such an output exists for every block whose byte range is a valid range of
non-negative `int`s. -/
theorem structured_round_trip (now : Line) (data : List Byte)
    (data_size block_num block_size total_size word_size : Int) (fill_pattern : Nat)
    (verbose : Bool)
    (hws : word_size = 8 ∨ word_size = 16 ∨ word_size = 32)
    (hfill : fill_pattern < 2 ^ 32) :
    (∀ (words : List Nat) (text : List Line),
        mif_words data data_size block_num block_size word_size fill_pattern = some words →
        mif_file_text now data data_size block_num block_size word_size fill_pattern
          verbose false = some text →
        ∃ parsed : List (Nat × Nat), parse_content text = some parsed ∧
          parsed.length = words.length ∧
          (0 ≤ block_size → block_size ≤ INT_MAX →
            (parsed.length : Int) = block_size / (word_size / 8)) ∧
          ∀ i wd, words.get? i = some wd → parsed.get? i = some (i, wd)) ∧
      (∀ (words : List Nat) (text : List Line),
        single_mif_words data data_size total_size word_size fill_pattern = some words →
        single_mif_file_text now data data_size total_size word_size fill_pattern
          = some text →
        ∃ parsed : List (Nat × Nat), parse_content text = some parsed ∧
          parsed.length = words.length ∧
          (0 ≤ total_size → total_size ≤ INT_MAX →
            (parsed.length : Int) = total_size / (word_size / 8)) ∧
          ∀ i wd, words.get? i = some wd → parsed.get? i = some (i, wd)) ∧
      (data_size = data.length → (data.length : Int) ≤ INT_MAX → 0 ≤ block_num →
        0 ≤ block_size → block_num * block_size + block_size ≤ INT_MAX →
        ∃ (words : List Nat) (text : List Line),
          mif_words data data_size block_num block_size word_size fill_pattern = some words ∧
          mif_file_text now data data_size block_num block_size word_size fill_pattern
            verbose false = some text) ∧
      (data_size = data.length → (data.length : Int) ≤ INT_MAX →
        0 ≤ total_size → total_size ≤ INT_MAX →
        ∃ (words : List Nat) (text : List Line),
          single_mif_words data data_size total_size word_size fill_pattern = some words ∧
          single_mif_file_text now data data_size total_size word_size fill_pattern
            = some text) := by
  refine ⟨?_, ?_, ?_, ?_⟩
  · intro words text hwords htext
    obtain ⟨wpb, hw, hlen, hget⟩ := mif_words_some data data_size block_num block_size
      word_size fill_pattern words hwords
    rw [mif_file_text_of_words now data data_size block_num block_size word_size
      fill_pattern verbose false words wpb hw hwords] at htext
    cases htext
    have hwl := words_per_block_le block_size word_size wpb hw
    refine ⟨indexed_from 0 words, ?_, indexed_from_length words 0, ?_, ?_⟩
    · apply parse_structured _ words (mif_header_split _ _ _ _ _ _) (by omega)
      intro wd hwd
      obtain ⟨k, hk⟩ := mem_get words wd hwd
      exact mif_word_lt data data_size block_num block_size word_size fill_pattern k wd hfill
        (hget k wd hk)
    · intro hsize hmax
      rw [indexed_from_length]
      exact word_count_eq block_size word_size wpb _ hws hw hlen hsize hmax
    · intro i wd hi
      have := indexed_from_get words 0 i wd hi
      rw [Nat.zero_add] at this
      exact this
  · intro words text hwords htext
    obtain ⟨wpb, hw, hlen, hget⟩ := single_mif_words_some data data_size total_size
      word_size fill_pattern words hwords
    rw [single_mif_file_text_of_words now data data_size total_size word_size
      fill_pattern words wpb hw hwords] at htext
    cases htext
    have hwl := words_per_block_le total_size word_size wpb hw
    refine ⟨indexed_from 0 words, ?_, indexed_from_length words 0, ?_, ?_⟩
    · apply parse_structured _ words (single_mif_header_split _ _ _ _ _) (by omega)
      intro wd hwd
      obtain ⟨k, hk⟩ := mem_get words wd hwd
      exact single_mif_word_lt data data_size word_size fill_pattern k wd hfill (hget k wd hk)
    · intro hsize hmax
      rw [indexed_from_length]
      exact word_count_eq total_size word_size wpb _ hws hw hlen hsize hmax
    · intro i wd hi
      have := indexed_from_get words 0 i wd hi
      rw [Nat.zero_add] at this
      exact this
  · intro hds hlen hnum hsize hrange
    subst hds
    have hnn : 0 ≤ block_num * block_size := Int.mul_nonneg hnum hsize
    have hmax : block_size ≤ 2147483647 := by
      have : block_num * block_size + block_size ≤ 2147483647 := hrange
      omega
    have hw := mif_words_eq data block_num block_size word_size fill_pattern hws hlen hnum
      hsize hrange
    exact ⟨_, _, hw, mif_file_text_of_words now data _ block_num block_size word_size
      fill_pattern verbose false _ _
      (words_per_block_nonneg block_size word_size hws hsize hmax) hw⟩
  · intro hds hlen hsize hmax
    subst hds
    have hw := single_mif_words_eq data total_size word_size fill_pattern hws hlen hsize hmax
    exact ⟨_, _, hw, single_mif_file_text_of_words now data _ total_size word_size
      fill_pattern _ _ (words_per_block_nonneg total_size word_size hws hsize hmax) hw⟩

/-- Witness of C7: image `01 02 03 04 05`, block 0 of 8 bytes, 32-bit words. -/
theorem structured_round_trip_witness :
    (mif_file_text "Sat Oct 31 07:41:00 2026".toList [1, 2, 3, 4, 5] 5 0 8 32 0x13 false
        false).bind parse_content = some [(0, 0x04030201), (1, 5)] ∧
      ∀ text : List Line,
        mif_file_text "Sat Oct 31 07:41:00 2026".toList [1, 2, 3, 4, 5] 5 0 8 32 0x13 false
          false = some text →
        ∃ parsed : List (Nat × Nat), parse_content text = some parsed ∧
          parsed.length = 2 :=
  ⟨by decide, fun text h =>
    match (structured_round_trip "Sat Oct 31 07:41:00 2026".toList [1, 2, 3, 4, 5] 5 0 8 8 32
        0x13 false (by decide) (by decide)).1 [0x04030201, 5] text (by decide) h with
    | ⟨parsed, hp, hl, _⟩ => ⟨parsed, hp, hl⟩⟩

/-- C8 (amended). For a size that is a valid non-negative `int` and a word size in {8,16,32}
the word count is `floor(size / (word_size/8))`: `word_count * (word_size/8)` equals the size
exactly when the size is a multiple of `word_size/8`, and otherwise is the largest multiple
of `word_size/8` below it. This holds for `block_size` in multi-block mode and for
`total_size` in single-file mode. -/
theorem word_count_times_word_bytes (block_size total_size word_size : Int)
    (hws : word_size = 8 ∨ word_size = 16 ∨ word_size = 32)
    (hb0 : 0 ≤ block_size) (hb1 : block_size ≤ INT_MAX)
    (ht0 : 0 ≤ total_size) (ht1 : total_size ≤ INT_MAX) :
    ∃ words_per_block_v total_words : Int,
      words_per_block block_size word_size = some words_per_block_v ∧
      words_per_block total_size word_size = some total_words ∧
      (words_per_block_v * (word_size / 8) = block_size ↔ (word_size / 8) ∣ block_size) ∧
      (total_words * (word_size / 8) = total_size ↔ (word_size / 8) ∣ total_size) ∧
      words_per_block_v * (word_size / 8) ≤ block_size ∧
      block_size < words_per_block_v * (word_size / 8) + word_size / 8 ∧
      total_words * (word_size / 8) ≤ total_size ∧
      total_size < total_words * (word_size / 8) + word_size / 8 := by
  obtain ⟨_, hb⟩ := int_div_word_size hws
  refine ⟨_, _, words_per_block_nonneg block_size word_size hws hb0 hb1,
    words_per_block_nonneg total_size word_size hws ht0 ht1, ?_⟩
  generalize word_size / 8 = b at hb
  rcases hb with h | h | h <;> subst h <;> omega

/-- Witness of C8 (amended): block size 512 and total size 49152 with 32-bit words. -/
theorem word_count_times_word_bytes_witness :
    ∃ words_per_block_v total_words : Int,
      words_per_block 512 32 = some words_per_block_v ∧
      words_per_block 49152 32 = some total_words ∧
      (words_per_block_v * (32 / 8) = 512 ↔ (32 / 8 : Int) ∣ 512) ∧
      (total_words * (32 / 8) = 49152 ↔ (32 / 8 : Int) ∣ 49152) ∧
      words_per_block_v * (32 / 8) ≤ 512 ∧
      512 < words_per_block_v * (32 / 8) + 32 / 8 ∧
      total_words * (32 / 8) ≤ 49152 ∧
      49152 < total_words * (32 / 8) + 32 / 8 :=
  word_count_times_word_bytes 512 49152 32 (by decide) (by decide) (by decide) (by decide)
    (by decide)

/-- Counterexample to C8 as stated: block size (or total size) 5 with 32-bit words gives the
word count 1, and `1 * (32/8) = 4`, not 5. -/
theorem word_count_truncates :
    words_per_block 5 32 = some 1 ∧ (1 : Int) * (32 / 8) ≠ 5 := by
  decide

theorem block_range_le (i : Nat) (total_blocks block_size : Int)
    (hi : (i : Int) < total_blocks) (hbs : 0 ≤ block_size) :
    (i : Int) * block_size + block_size ≤ total_blocks * block_size := by
  have h1 : ((i : Int) + 1) * block_size ≤ total_blocks * block_size :=
    Int.mul_le_mul_of_nonneg_right (by omega) hbs
  rw [Int.add_mul, Int.one_mul] at h1
  exact h1

/-- An out-of-range `total_blocks` option ends `parse_arguments` with `-1` at that option. -/
theorem parse_total_blocks_above_max (v : Int) (hv : MAX_BLOCKS < v)
    (after : List getopt_event) (config : config_t) :
    parse_arguments (getopt_event.total_blocks v :: after) config
      = parse_result.returned (-1) { config with total_blocks := v } := by
  rw [parse_arguments]
  rw [if_pos (Or.inr hv)]

/-- Options in front of an out-of-range `total_blocks` option either end the parse
themselves (with `-1`, or through `exit(0)` for help and version) or lead to its rejection. -/
theorem parse_arguments_before_rejected (v : Int) (hv : MAX_BLOCKS < v)
    (after : List getopt_event) :
    ∀ (before : List getopt_event) (config : config_t),
      (∃ c, parse_arguments (before ++ getopt_event.total_blocks v :: after) config
          = parse_result.returned (-1) c) ∨
      ((getopt_event.help ∈ before ∨ getopt_event.version ∈ before) ∧
        parse_arguments (before ++ getopt_event.total_blocks v :: after) config
          = parse_result.exited 0) := by
  intro before
  induction before with
  | nil =>
    intro config
    left
    exact ⟨_, parse_total_blocks_above_max v hv after config⟩
  | cons e rest ih =>
    intro config
    have step : ∀ c : config_t,
        (∃ c1, parse_arguments (rest ++ getopt_event.total_blocks v :: after) c
            = parse_result.returned (-1) c1) ∨
        ((getopt_event.help ∈ e :: rest ∨ getopt_event.version ∈ e :: rest) ∧
          parse_arguments (rest ++ getopt_event.total_blocks v :: after) c
            = parse_result.exited 0) := by
      intro c
      rcases ih c with h | ⟨h1, h2⟩
      · exact Or.inl h
      · refine Or.inr ⟨?_, h2⟩
        rcases h1 with h1 | h1
        · exact Or.inl (List.mem_cons_of_mem _ h1)
        · exact Or.inr (List.mem_cons_of_mem _ h1)
    rw [List.cons_append]
    cases e <;> rw [parse_arguments]
    case input optarg => exact step _
    case output optarg => exact step _
    case block_type optarg => exact step _
    case fill_pattern x => exact step _
    case hex => exact step _
    case single_mif => exact step _
    case verbose => exact step _
    case help => exact Or.inr ⟨Or.inl (List.mem_cons_self _ _), rfl⟩
    case version => exact Or.inr ⟨Or.inr (List.mem_cons_self _ _), rfl⟩
    case unknown => exact Or.inl ⟨_, rfl⟩
    all_goals
      split
      · exact Or.inl ⟨_, rfl⟩
      · exact step _

/-- C10. A `total_blocks` option above 128 is rejected when it is parsed: `parse_arguments`
returns `-1` at that option with the requested value left untruncated in the configuration;
unless a help or version option in front of it has already ended the program, `main` ends
with status 1; in every case the conversion is not started and no file is written. -/
theorem total_blocks_above_max_is_rejected (w : world) (v : Int) (hv : MAX_BLOCKS < v)
    (before after : List getopt_event) :
    (∀ config : config_t,
      parse_arguments (getopt_event.total_blocks v :: after) config
        = parse_result.returned (-1) { config with total_blocks := v }) ∧
    (getopt_event.help ∉ before → getopt_event.version ∉ before →
      (∃ c, parse_arguments (before ++ getopt_event.total_blocks v :: after) init_config
          = parse_result.returned (-1) c) ∧
      main w (before ++ getopt_event.total_blocks v :: after) = some (1, [])) ∧
    (∃ status : Int,
      main w (before ++ getopt_event.total_blocks v :: after) = some (status, [])) := by
  refine ⟨parse_total_blocks_above_max v hv after, ?_, ?_⟩
  · intro hh hver
    rcases parse_arguments_before_rejected v hv after before init_config with ⟨c, h⟩ | ⟨h1, _⟩
    · refine ⟨⟨c, h⟩, ?_⟩
      unfold main
      rw [h]
      rfl
    · rcases h1 with h1 | h1
      · exact absurd h1 hh
      · exact absurd h1 hver
  · rcases parse_arguments_before_rejected v hv after before init_config with ⟨c, h⟩ | ⟨_, h⟩
    · refine ⟨1, ?_⟩
      unfold main
      rw [h]
      rfl
    · refine ⟨0, ?_⟩
      unfold main
      rw [h]

/-- Witness of C10: input and output options followed by a request for 200 blocks. -/
theorem total_blocks_above_max_is_rejected_witness :
    main sample_world [getopt_event.input "fw.bin".toList, getopt_event.output "fw_".toList,
      getopt_event.total_blocks 200] = some (1, []) :=
  ((total_blocks_above_max_is_rejected sample_world 200 (by decide)
      [getopt_event.input "fw.bin".toList, getopt_event.output "fw_".toList] []).2.1
    (by decide) (by decide)).2

theorem indexed_from_fst : ∀ (words : List Nat) (s : Nat),
    (indexed_from s words).map Prod.fst = List.range' s words.length := by
  intro words
  induction words with
  | nil => intro s; rfl
  | cons wd rest ih =>
    intro s
    rw [indexed_from, List.map_cons, ih (s + 1), List.length_cons, List.range'_succ]

/-- The layout of a twelve-line header followed by the content lines and `END;`. -/
theorem structured_layout (header : List Line) (words : List Nat) (width depth : Int)
    (hlen12 : header.length = 12)
    (h6 : header.get? 6 = some ("DEPTH = ".toList ++ printf_d depth ++ ";".toList))
    (h7 : header.get? 7 = some ("WIDTH = ".toList ++ printf_d width ++ ";".toList))
    (hsplit : header = header.take 11 ++ ["BEGIN".toList] ∧
      ∀ l, l ∈ header.take 11 → (l != "BEGIN".toList) = true)
    (hdepth : depth = words.length)
    (hlen : words.length ≤ 4294967296) (hw : ∀ wd, wd ∈ words → wd < 4294967296) :
    is_structured_text (header ++ content_lines 0 words ++ ["END;".toList])
      words.length width := by
  have hcl := content_lines_length words 0
  have hshape : header ++ content_lines 0 words ++ ["END;".toList]
      = header.take 11 ++ "BEGIN".toList :: (content_lines 0 words ++ ["END;".toList]) := by
    conv => lhs; rw [hsplit.1]
    simp
  have hsec : content_section (header ++ content_lines 0 words ++ ["END;".toList])
      = content_lines 0 words := by
    rw [hshape, content_section_of _ _ hsplit.2 (content_lines_ne_end words 0)]
  have hpre : ∀ j, j < 12 →
      (header ++ content_lines 0 words ++ ["END;".toList]).get? j = header.get? j := by
    intro j hj
    rw [List.append_assoc, List.get?_eq_getElem?, List.get?_eq_getElem?,
      List.getElem?_append_left (by omega)]
  have ht11 : (header.take 11).length = 11 := by
    rw [List.length_take, hlen12]
    rfl
  subst hdepth
  refine ⟨?_, ?_, ?_, ?_, ?_, ?_, ?_, ?_, ?_⟩
  · rw [hpre 6 (by omega), h6]
  · rw [hpre 7 (by omega), h7]
  · rw [hpre 11 (by omega)]
    conv => lhs; rw [hsplit.1]
    rw [List.get?_eq_getElem?, List.getElem?_append_right (by omega), ht11]
    rfl
  · intro j hj heq
    rw [hpre j (by omega)] at heq
    have hmem : "BEGIN".toList ∈ header.take 11 := by
      have h1 : (header.take 11).get? j = some "BEGIN".toList := by
        rw [List.get?_eq_getElem?] at heq ⊢
        rw [List.getElem?_take_of_lt hj]
        exact heq
      rw [List.get?_eq_getElem?] at h1
      exact List.getElem?_mem h1
    have := hsplit.2 _ hmem
    simp at this
  · rw [List.get?_eq_getElem?, List.getElem?_append_right (by
      rw [List.length_append, hlen12, hcl])]
    rw [List.length_append, hlen12, hcl, Nat.sub_self]
    rfl
  · rw [List.length_append, List.length_append, hlen12, hcl, List.length_singleton]
    omega
  · rw [hsec, List.append_assoc, List.drop_append_of_le_length (by omega)]
    rw [show List.drop 12 header = [] from List.drop_eq_nil_of_le (by omega), List.nil_append]
    rw [List.take_append_of_le_length (by omega), List.take_of_length_le (by omega)]
  · rw [hsec, hcl]
  · refine ⟨indexed_from 0 words, parse_structured header words hsplit hlen hw, ?_⟩
    rw [indexed_from_fst, List.range_eq_range']

/-- The text of the single file has the structured layout whenever it is produced. -/
theorem single_mif_file_text_some (now : Line) (data : List Byte)
    (data_size total_size word_size : Int) (fill_pattern : Nat) (text : List Line)
    (h : single_mif_file_text now data data_size total_size word_size fill_pattern
      = some text) :
    ∃ (total_words : Int) (words : List Nat),
      words_per_block total_size word_size = some total_words ∧
      single_mif_words data data_size total_size word_size fill_pattern = some words ∧
      text = single_mif_header now total_size total_words word_size fill_pattern
        ++ content_lines 0 words ++ ["END;".toList] := by
  unfold single_mif_file_text at h
  cases hw : words_per_block total_size word_size with
  | none => rw [hw] at h; simp only [] at h; exact absurd h (by simp)
  | some total_words =>
    rw [hw] at h
    simp only [] at h
    cases hs : single_mif_words data data_size total_size word_size fill_pattern with
    | none => rw [hs] at h; simp only [] at h; exact absurd h (by simp)
    | some words =>
      rw [hs] at h
      simp only [Option.some.injEq] at h
      exact ⟨total_words, words, rfl, rfl, h.symm⟩

/-- Counterexample to C12: with single-file mode and hex output both selected, the four
bytes `01 02 03 04` give a structured file of 14 lines, not the one line `04030201`. -/
theorem single_file_hex_option_gives_structured_text :
    convert_bin_to_mif sample_world
        { sample_config with single_mif := true, hex_format := true, total_size := 4 }
      = some (0, [{ filename := "fw_".toList,
                    text := [ "-- Single complete MIF file".toList,
                              "-- Generated by bin2mif version 1.1.0".toList,
                              "-- Total size: 4 bytes, 1 words".toList,
                              "-- Fill pattern: 0x00000013".toList,
                              "-- Generated: Sat Oct 31 07:41:00 2026".toList,
                              [],
                              "DEPTH = 1;".toList,
                              "WIDTH = 32;".toList,
                              "ADDRESS_RADIX = HEX;".toList,
                              "DATA_RADIX = HEX;".toList,
                              "CONTENT".toList,
                              "BEGIN".toList,
                              "0000 : 04030201;".toList,
                              "END;".toList ] }]) ∧
    hex_lines [0x04030201] = ["04030201".toList] := by
  decide

/-- C12 (amended). In single-file mode the output mode is not consulted: the result is the
same with and without the hex option, and whenever the run succeeds its single output unit
is the structured text (header with declarations, one `ADDR : DATA;` line per word, `END;`). -/
theorem single_file_is_always_structured (w : world) (config : config_t)
    (hmode : config.single_mif = true) ( hex : Bool) :
    convert_bin_to_mif w { config with hex_format := hex } = convert_bin_to_mif w config ∧
    ∀ units : List output_unit, convert_bin_to_mif w config = some (0, units) →
      ∃ (data : List Byte) (total_words : Int) (words : List Nat),
        w.load config.input_file = some data ∧
        words_per_block config.total_size config.word_size = some total_words ∧
        single_mif_words data (wrap_int data.length) config.total_size config.word_size
          config.fill_pattern = some words ∧
        units = [{ filename := config.output_pattern,
                   text := single_mif_header w.now config.total_size total_words
                       config.word_size config.fill_pattern
                     ++ content_lines 0 words ++ ["END;".toList] }] := by
  constructor
  · unfold convert_bin_to_mif
    simp only []
    rw [hmode]
    simp only [if_true]
  · intro units h
    unfold convert_bin_to_mif at h
    cases hl : w.load config.input_file with
    | none =>
      rw [hl] at h
      simp only [Option.some.injEq, Prod.mk.injEq] at h
      omega
    | some data =>
      rw [hl] at h
      simp only [] at h
      rw [hmode, if_pos rfl] at h
      unfold generate_single_mif_file at h
      cases hc : w.can_create config.output_pattern with
      | false =>
        rw [hc] at h
        simp at h
      | true =>
        rw [hc, if_pos rfl] at h
        cases ht : single_mif_file_text w.now data (wrap_int data.length) config.total_size
            config.word_size config.fill_pattern with
        | none =>
          rw [ht] at h
          simp at h
        | some text =>
          rw [ht] at h
          simp at h
          obtain ⟨total_words, words, h1, h2, h3⟩ := single_mif_file_text_some _ _ _ _ _ _ _ ht
          exact ⟨data, total_words, words, rfl, h1, h2, by rw [← h, h3]⟩

/-- Witness of C12 (amended): the sample run in single-file mode with the hex option. -/
theorem single_file_is_always_structured_witness :
    convert_bin_to_mif sample_world
        { sample_config with single_mif := true, hex_format := true }
      = convert_bin_to_mif sample_world { sample_config with single_mif := true } :=
  (single_file_is_always_structured sample_world { sample_config with single_mif := true }
    rfl true).1

/-- The text of a block in structured format has the structured layout whenever it is
produced. -/
theorem mif_file_text_some (now : Line) (data : List Byte)
    (data_size block_num block_size word_size : Int) (fill_pattern : Nat) (verbose : Bool)
    (text : List Line)
    (h : mif_file_text now data data_size block_num block_size word_size fill_pattern
      verbose false = some text) :
    ∃ (wpb : Int) (words : List Nat),
      words_per_block block_size word_size = some wpb ∧
      mif_words data data_size block_num block_size word_size fill_pattern = some words ∧
      text = mif_header now block_num block_size wpb word_size fill_pattern
        ++ content_lines 0 words ++ ["END;".toList] := by
  unfold mif_file_text at h
  cases hw : words_per_block block_size word_size with
  | none => rw [hw] at h; simp only [] at h; exact absurd h (by simp)
  | some wpb =>
    rw [hw] at h
    simp only [] at h
    cases hs : mif_words data data_size block_num block_size word_size fill_pattern with
    | none => rw [hs] at h; simp only [] at h; exact absurd h (by simp)
    | some words =>
      rw [hs] at h
      simp only [Bool.false_eq_true, if_false, Option.some.injEq] at h
      exact ⟨wpb, words, rfl, rfl, h.symm⟩

/-- C13. A structured text, of a block or of the single file, over a non-negative size
has the declaration lines `DEPTH = <word_count>;` and `WIDTH = <word_size>;` before the
`BEGIN` line; its content section lies between `BEGIN` and the final `END;`, and consists
of exactly `word_count = size / (word_size/8)` lines with addresses `0, ..., word_count - 1`
in increasing order. For sizes and offsets in the `int` range such a text is produced. -/
theorem structured_declarations_and_markers (now : Line) (data : List Byte)
    (data_size block_num block_size total_size word_size : Int) (fill_pattern : Nat)
    (verbose : Bool)
    (hws : word_size = 8 ∨ word_size = 16 ∨ word_size = 32)
    (hfill : fill_pattern < 2 ^ 32) :
    (∀ text : List Line, 0 ≤ block_size → block_size ≤ INT_MAX →
        mif_file_text now data data_size block_num block_size word_size fill_pattern
          verbose false = some text →
        is_structured_text text (block_size / (word_size / 8)).toNat word_size) ∧
    (∀ text : List Line, 0 ≤ total_size → total_size ≤ INT_MAX →
        single_mif_file_text now data data_size total_size word_size fill_pattern
          = some text →
        is_structured_text text (total_size / (word_size / 8)).toNat word_size) ∧
    (data_size = data.length → (data.length : Int) ≤ INT_MAX → 0 ≤ block_num →
        0 ≤ block_size → block_num * block_size + block_size ≤ INT_MAX →
        ∃ text : List Line,
          mif_file_text now data data_size block_num block_size word_size fill_pattern
            verbose false = some text) ∧
    (data_size = data.length → (data.length : Int) ≤ INT_MAX →
        0 ≤ total_size → total_size ≤ INT_MAX →
        ∃ text : List Line,
          single_mif_file_text now data data_size total_size word_size fill_pattern
            = some text) := by
  have hf : fill_pattern < 4294967296 := hfill
  refine ⟨?_, ?_, ?_, ?_⟩
  · intro text h0 h1 h
    obtain ⟨wpb, words, hw, hws2, htext⟩ := mif_file_text_some _ _ _ _ _ _ _ _ _ h
    obtain ⟨wpb2, hw2, hlen, hget⟩ := mif_words_some _ _ _ _ _ _ _ hws2
    rw [hw] at hw2
    simp only [Option.some.injEq] at hw2
    subst hw2
    have hcount := word_count_eq block_size word_size wpb words.length hws hw hlen h0 h1
    have hle := words_per_block_le block_size word_size wpb hw
    have hwpb : wpb = block_size / (word_size / 8) := by
      have := words_per_block_nonneg block_size word_size hws h0 h1
      rw [hw] at this
      simpa using this
    rw [htext, ← hwpb, ← hlen]
    refine structured_layout _ words word_size wpb (mif_header_length _ _ _ _ _ _) rfl rfl
      (mif_header_split _ _ _ _ _ _) (by omega) (by omega) ?_
    intro wd hwd
    obtain ⟨k, hk⟩ := mem_get words wd hwd
    exact mif_word_lt _ _ _ _ _ _ _ _ hf (hget k wd hk)
  · intro text h0 h1 h
    obtain ⟨wpb, words, hw, hws2, htext⟩ := single_mif_file_text_some _ _ _ _ _ _ _ h
    obtain ⟨wpb2, hw2, hlen, hget⟩ := single_mif_words_some _ _ _ _ _ _ hws2
    rw [hw] at hw2
    simp only [Option.some.injEq] at hw2
    subst hw2
    have hcount := word_count_eq total_size word_size wpb words.length hws hw hlen h0 h1
    have hle := words_per_block_le total_size word_size wpb hw
    have hwpb : wpb = total_size / (word_size / 8) := by
      have := words_per_block_nonneg total_size word_size hws h0 h1
      rw [hw] at this
      simpa using this
    rw [htext, ← hwpb, ← hlen]
    refine structured_layout _ words word_size wpb (single_mif_header_length _ _ _ _ _) rfl
      rfl (single_mif_header_split _ _ _ _ _) (by omega) (by omega) ?_
    intro wd hwd
    obtain ⟨k, hk⟩ := mem_get words wd hwd
    exact single_mif_word_lt _ _ _ _ _ _ hf (hget k wd hk)
  · intro hds hlen hnum hsize hrange
    subst hds
    have hm : INT_MAX = 2147483647 := rfl
    rw [hm] at hlen hrange
    have hnn : 0 ≤ block_num * block_size := Int.mul_nonneg hnum hsize
    have hw := mif_words_eq data block_num block_size word_size fill_pattern hws hlen hnum
      hsize hrange
    exact ⟨_, mif_file_text_of_words now data _ block_num block_size word_size fill_pattern
      verbose false _ _ (words_per_block_nonneg block_size word_size hws hsize (by omega)) hw⟩
  · intro hds hlen hsize hrange
    subst hds
    have hm : INT_MAX = 2147483647 := rfl
    rw [hm] at hlen hrange
    have hw := single_mif_words_eq data total_size word_size fill_pattern hws hlen hsize
      hrange
    exact ⟨_, single_mif_file_text_of_words now data _ total_size word_size fill_pattern
      _ _ (words_per_block_nonneg total_size word_size hws hsize hrange) hw⟩

/-- Witness of C13: the two-word block over the image `01 02 03 04 05`. -/
theorem structured_declarations_and_markers_witness :
    ∃ text : List Line,
      mif_file_text "Sat Oct 31 07:41:00 2026".toList [1, 2, 3, 4, 5] 5 0 8 32 0x13 false
        false = some text ∧
      is_structured_text text 2 32 :=
  match (structured_declarations_and_markers "Sat Oct 31 07:41:00 2026".toList
      [1, 2, 3, 4, 5] 5 0 8 49152 32 0x13 false (by decide) (by decide)).2.2.1
      rfl (by decide) (by decide) (by decide) (by decide) with
  | ⟨text, h⟩ =>
    ⟨text, h,
      (structured_declarations_and_markers "Sat Oct 31 07:41:00 2026".toList [1, 2, 3, 4, 5]
        5 0 8 49152 32 0x13 false (by decide) (by decide)).1 text (by decide) (by decide) h⟩

/-- Accepted options keep a configuration well-formed. -/
theorem parse_arguments_keeps_well_formed :
    ∀ (args : List getopt_event) (config accepted : config_t),
      well_formed_config config →
      parse_arguments args config = parse_result.returned 0 accepted →
      well_formed_config accepted := by
  intro args
  induction args with
  | nil =>
    intro config accepted hwf h
    rw [parse_arguments] at h
    split at h
    · simp at h
    · split at h
      · simp at h
      · simp only [parse_result.returned.injEq, true_and] at h
        rw [← h]
        exact hwf
  | cons e rest ih =>
    intro config accepted hwf h
    obtain ⟨h1, h2, h3, h4, h5⟩ := hwf
    cases e <;> rw [parse_arguments] at h
    case input optarg => exact ih _ accepted (by exact ⟨h1, h2, h3, h4, h5⟩) h
    case output optarg => exact ih _ accepted (by exact ⟨h1, h2, h3, h4, h5⟩) h
    case block_type optarg => exact ih _ accepted (by exact ⟨h1, h2, h3, h4, h5⟩) h
    case fill_pattern x => exact ih _ accepted (by exact ⟨h1, h2, h3, h4, h5⟩) h
    case hex => exact ih _ accepted (by exact ⟨h1, h2, h3, h4, h5⟩) h
    case single_mif => exact ih _ accepted (by exact ⟨h1, h2, h3, h4, h5⟩) h
    case verbose => exact ih _ accepted (by exact ⟨h1, h2, h3, h4, h5⟩) h
    case help => simp at h
    case version => simp at h
    case unknown => simp at h
    case block_size v =>
      split at h
      · simp at h
      · refine ih _ accepted ?_ h
        exact ⟨h1, by show 0 < v; omega, h3, h4, h5⟩
    case word_size v =>
      split at h
      · simp at h
      · refine ih _ accepted ?_ h
        refine ⟨?_, h2, h3, h4, h5⟩
        show v = 8 ∨ v = 16 ∨ v = 32
        omega
    case max_blocks v =>
      split at h
      · simp at h
      · exact ih _ accepted (by exact ⟨h1, h2, h3, h4, h5⟩) h
    case total_blocks v =>
      split at h
      · simp at h
      · rename_i hv
        have hm : MAX_BLOCKS = 128 := rfl
        rw [hm] at hv
        refine ih _ accepted ?_ h
        refine ⟨h1, h2, h3, ?_, ?_⟩
        · show 1 ≤ v
          omega
        · show v ≤ MAX_BLOCKS
          rw [hm]
          omega
    case total_size v =>
      split at h
      · simp at h
      · refine ih _ accepted ?_ h
        exact ⟨h1, h2, by show 0 < v; omega, h4, h5⟩

/-- An out-of-range option ends the parse with `-1` at that option. -/
theorem parse_out_of_range (e : getopt_event) (he : out_of_range e)
    (after : List getopt_event) (config : config_t) :
    ∃ c, parse_arguments (e :: after) config = parse_result.returned (-1) c := by
  cases e <;> simp only [out_of_range] at he <;> rw [parse_arguments]
  case block_size v => exact ⟨_, if_pos he⟩
  case word_size v => exact ⟨_, if_pos he⟩
  case max_blocks v => exact ⟨_, if_pos he⟩
  case total_blocks v => exact ⟨_, if_pos he⟩
  case total_size v => exact ⟨_, if_pos he⟩

/-- A parse that contains an out-of-range option never returns success. -/
theorem parse_with_out_of_range (e : getopt_event) (he : out_of_range e)
    (after : List getopt_event) :
    ∀ (before : List getopt_event) (config : config_t),
      (∃ c, parse_arguments (before ++ e :: after) config = parse_result.returned (-1) c) ∨
      parse_arguments (before ++ e :: after) config = parse_result.exited 0 := by
  intro before
  induction before with
  | nil =>
    intro config
    exact Or.inl (parse_out_of_range e he after config)
  | cons b rest ih =>
    intro config
    rw [List.cons_append]
    cases b <;> rw [parse_arguments]
    case input optarg => exact ih _
    case output optarg => exact ih _
    case block_type optarg => exact ih _
    case fill_pattern x => exact ih _
    case hex => exact ih _
    case single_mif => exact ih _
    case verbose => exact ih _
    case help => exact Or.inr rfl
    case version => exact Or.inr rfl
    case unknown => exact Or.inl ⟨_, rfl⟩
    all_goals
      split
      · exact Or.inl ⟨_, rfl⟩
      · exact ih _

/-- C14. Every configuration that `parse_arguments` accepts, starting from the defaults of
`init_config`, is well-formed: `word_size` is 8, 16 or 32, `block_size > 0`,
`total_size > 0` and `1 <= total_blocks <= 128`; so `word_size / 8` is defined and positive
and both word counts are defined. A parse that does not return 0 ends `main` before the
input is loaded or any file is created, and a command line with an out-of-range option
value is never accepted. -/
theorem accepted_configuration_is_well_formed (w : world) (args : List getopt_event) :
    (∀ config : config_t,
      parse_arguments args init_config = parse_result.returned 0 config →
      well_formed_config config ∧
      (∃ bpw : Int, int_div config.word_size 8 = some bpw ∧ 0 < bpw) ∧
      (∃ wpb : Int, words_per_block config.block_size config.word_size = some wpb) ∧
      (∃ total_words : Int,
        words_per_block config.total_size config.word_size = some total_words)) ∧
    (∀ (rc : Int) (config : config_t),
      parse_arguments args init_config = parse_result.returned rc config → rc ≠ 0 →
      main w args = some (1, [])) ∧
    (∀ (before after : List getopt_event) (e : getopt_event),
      out_of_range e → args = before ++ e :: after →
      (∀ config : config_t,
        parse_arguments args init_config ≠ parse_result.returned 0 config) ∧
      ∃ status : Int, main w args = some (status, [])) := by
  refine ⟨?_, ?_, ?_⟩
  · intro config h
    have hinit : well_formed_config init_config := by
      unfold well_formed_config
      decide
    have hwf := parse_arguments_keeps_well_formed args init_config config hinit h
    refine ⟨hwf, ?_⟩
    obtain ⟨hws, _, _, _, _⟩ := hwf
    obtain ⟨hdiv, hb⟩ := int_div_word_size hws
    refine ⟨⟨_, hdiv, ?_⟩, ?_, ?_⟩
    · generalize config.word_size / 8 = b at hb
      rcases hb with h | h | h <;> subst h <;> decide
    · unfold words_per_block
      rw [hdiv]
      simp only []
      unfold int_div
      rw [if_neg (by
        generalize config.word_size / 8 = b at hb
        rcases hb with h | h | h <;> subst h <;> decide)]
      exact ⟨_, rfl⟩
    · unfold words_per_block
      rw [hdiv]
      simp only []
      unfold int_div
      rw [if_neg (by
        generalize config.word_size / 8 = b at hb
        rcases hb with h | h | h <;> subst h <;> decide)]
      exact ⟨_, rfl⟩
  · intro rc config h hrc
    unfold main
    rw [h]
    simp only []
    rw [if_pos hrc]
  · intro before after e he hargs
    subst hargs
    rcases parse_with_out_of_range e he after before init_config with ⟨c, h⟩ | h
    · refine ⟨?_, 1, ?_⟩
      · intro config hc
        rw [h] at hc
        simp at hc
      · unfold main
        rw [h]
        rfl
    · refine ⟨?_, 0, ?_⟩
      · intro config hc
        rw [h] at hc
        simp at hc
      · unfold main
        rw [h]

/-- Witness of C14: a command line with a word size of 16 bits and 4 blocks is accepted
and gives a well-formed configuration. -/
theorem accepted_configuration_is_well_formed_witness :
    parse_arguments [getopt_event.input "fw.bin".toList, getopt_event.output "fw_".toList,
        getopt_event.word_size 16, getopt_event.total_blocks 4] init_config
      = parse_result.returned 0
          { init_config with input_file := "fw.bin".toList, output_pattern := "fw_".toList,
                             word_size := 16, total_blocks := 4 } ∧
    well_formed_config
      { init_config with input_file := "fw.bin".toList, output_pattern := "fw_".toList,
                         word_size := 16, total_blocks := 4 } :=
  ⟨by decide,
   ((accepted_configuration_is_well_formed sample_world
      [getopt_event.input "fw.bin".toList, getopt_event.output "fw_".toList,
       getopt_event.word_size 16, getopt_event.total_blocks 4]).1 _ (by decide)).1⟩

/-- The word at an offset depends only on the buffer length and the bytes of its slot. -/
theorem word_at_offset_congr (data1 data2 : List Byte) (off n fill_pattern : Nat)
    (hlen : data2.length = data1.length)
    (h : ∀ k, k < n → data1.getD (off + k) 0 = data2.getD (off + k) 0) :
    word_at_offset data1 off n fill_pattern = word_at_offset data2 off n fill_pattern := by
  unfold word_at_offset le_value
  rw [hlen]
  congr 2
  apply List.map_congr_left
  intro k hk
  rw [List.mem_range] at hk
  unfold lane_byte
  rw [hlen, h k hk]

/-- The bytes of the words of a block lie below the end of its last whole word. -/
theorem slot_below_cover (start b wpb k j : Nat) (hk : k < wpb) (hj : j < b) :
    start + k * b + j < start + wpb * b := by
  have h1 : (k + 1) * b ≤ wpb * b := Nat.mul_le_mul_right b (by omega)
  rw [Nat.add_mul, Nat.one_mul] at h1
  omega

/-- C15. When the size of a block (or `total_size` in single-file mode) is not a multiple
of `word_size/8`, the word count is the quotient rounded down and the text is produced
without error; the bytes from the end of the last whole word to the end of the range are
covered by no word: two images of the same length that differ only at such positions give
the same text, and `generate_mif_file` returns 0 for both. -/
theorem trailing_bytes_are_not_emitted (w : world) (filename : List Char)
    (data1 data2 : List Byte)
    (block_num block_size total_size word_size : Int) (fill_pattern : Nat)
    (verbose hex_format : Bool)
    (hws : word_size = 8 ∨ word_size = 16 ∨ word_size = 32)
    (hlen1 : (data1.length : Int) ≤ INT_MAX)
    (hlen : data2.length = data1.length) :
    (0 ≤ block_num → 0 ≤ block_size → block_num * block_size + block_size ≤ INT_MAX →
      (∀ p : Nat,
        ¬ ((block_num * block_size).toNat
              + (block_size / (word_size / 8)).toNat * (word_size / 8).toNat ≤ p ∧
            p < (block_num * block_size).toNat + block_size.toNat) →
        data1.getD p 0 = data2.getD p 0) →
      words_per_block block_size word_size = some (block_size / (word_size / 8)) ∧
      ∃ text : List Line,
        mif_file_text w.now data1 data1.length block_num block_size word_size fill_pattern
          verbose hex_format = some text ∧
        mif_file_text w.now data2 data2.length block_num block_size word_size fill_pattern
          verbose hex_format = some text ∧
        (w.can_create filename = true →
          generate_mif_file w filename data1 data1.length block_num block_size word_size
              fill_pattern verbose hex_format
            = some (0, [{ filename := filename, text := text }]) ∧
          generate_mif_file w filename data2 data2.length block_num block_size word_size
              fill_pattern verbose hex_format
            = some (0, [{ filename := filename, text := text }]))) ∧
    (0 ≤ total_size → total_size ≤ INT_MAX →
      (∀ p : Nat,
        ¬ ((total_size / (word_size / 8)).toNat * (word_size / 8).toNat ≤ p ∧
            p < total_size.toNat) →
        data1.getD p 0 = data2.getD p 0) →
      words_per_block total_size word_size = some (total_size / (word_size / 8)) ∧
      ∃ text : List Line,
        single_mif_file_text w.now data1 data1.length total_size word_size fill_pattern
          = some text ∧
        single_mif_file_text w.now data2 data2.length total_size word_size fill_pattern
          = some text ∧
        (w.can_create filename = true →
          generate_single_mif_file w filename data1 data1.length total_size word_size
              fill_pattern verbose
            = some (0, [{ filename := filename, text := text }]) ∧
          generate_single_mif_file w filename data2 data2.length total_size word_size
              fill_pattern verbose
            = some (0, [{ filename := filename, text := text }]))) := by
  have hm : INT_MAX = 2147483647 := rfl
  rw [hm] at hlen1
  have hlen2 : (data2.length : Int) ≤ 2147483647 := by rw [hlen]; exact hlen1
  constructor
  · intro hnum hsize hrange hsame
    rw [hm] at hrange
    have hnn : 0 ≤ block_num * block_size := Int.mul_nonneg hnum hsize
    have hwpb := words_per_block_nonneg block_size word_size hws hsize (by omega)
    have hw1 := mif_words_eq data1 block_num block_size word_size fill_pattern hws hlen1
      hnum hsize hrange
    have hw2 := mif_words_eq data2 block_num block_size word_size fill_pattern hws hlen2
      hnum hsize hrange
    have heq : (List.range (block_size / (word_size / 8)).toNat).map (fun k =>
          word_at_offset data2 ((block_num * block_size).toNat + k * (word_size / 8).toNat)
            (word_size / 8).toNat fill_pattern)
        = (List.range (block_size / (word_size / 8)).toNat).map (fun k =>
          word_at_offset data1 ((block_num * block_size).toNat + k * (word_size / 8).toNat)
            (word_size / 8).toNat fill_pattern) := by
      apply List.map_congr_left
      intro k hk
      rw [List.mem_range] at hk
      symm
      apply word_at_offset_congr _ _ _ _ _ hlen
      intro j hj
      apply hsame
      intro hp
      have := slot_below_cover (block_num * block_size).toNat (word_size / 8).toNat
        (block_size / (word_size / 8)).toNat k j hk hj
      omega
    rw [heq] at hw2
    have ht1 := mif_file_text_of_words w.now data1 _ block_num block_size word_size
      fill_pattern verbose hex_format _ _ hwpb hw1
    have ht2 := mif_file_text_of_words w.now data2 _ block_num block_size word_size
      fill_pattern verbose hex_format _ _ hwpb hw2
    refine ⟨hwpb, _, ht1, ht2, ?_⟩
    intro hc
    unfold generate_mif_file
    rw [hc, if_pos rfl, ht1, ht2]
    exact ⟨rfl, rfl⟩
  · intro hsize hrange hsame
    rw [hm] at hrange
    have hwpb := words_per_block_nonneg total_size word_size hws hsize hrange
    have hw1 := single_mif_words_eq data1 total_size word_size fill_pattern hws hlen1
      hsize hrange
    have hw2 := single_mif_words_eq data2 total_size word_size fill_pattern hws hlen2
      hsize hrange
    have heq : (List.range (total_size / (word_size / 8)).toNat).map (fun k =>
          word_at_offset data2 (k * (word_size / 8).toNat)
            (word_size / 8).toNat fill_pattern)
        = (List.range (total_size / (word_size / 8)).toNat).map (fun k =>
          word_at_offset data1 (k * (word_size / 8).toNat)
            (word_size / 8).toNat fill_pattern) := by
      apply List.map_congr_left
      intro k hk
      rw [List.mem_range] at hk
      symm
      apply word_at_offset_congr _ _ _ _ _ hlen
      intro j hj
      apply hsame
      intro hp
      have := slot_below_cover 0 (word_size / 8).toNat
        (total_size / (word_size / 8)).toNat k j hk hj
      omega
    rw [heq] at hw2
    have ht1 := single_mif_file_text_of_words w.now data1 _ total_size word_size
      fill_pattern _ _ hwpb hw1
    have ht2 := single_mif_file_text_of_words w.now data2 _ total_size word_size
      fill_pattern _ _ hwpb hw2
    refine ⟨hwpb, _, ht1, ht2, ?_⟩
    intro hc
    unfold generate_single_mif_file
    rw [hc, if_pos rfl, ht1, ht2]
    exact ⟨rfl, rfl⟩

/-- Witness of C15: a block of 6 bytes with 32-bit words has one word; the images
`01 02 03 04 05 06` and `01 02 03 04 07 09` give the same text. -/
theorem trailing_bytes_are_not_emitted_witness :
    words_per_block 6 32 = some 1 ∧
    mif_file_text sample_world.now [1, 2, 3, 4, 5, 6] 6 0 6 32 0x13 false true
      = some ["04030201".toList] ∧
    mif_file_text sample_world.now [1, 2, 3, 4, 7, 9] 6 0 6 32 0x13 false true
      = some ["04030201".toList] ∧
    ∃ text : List Line,
      mif_file_text sample_world.now [1, 2, 3, 4, 5, 6] ([1, 2, 3, 4, 5, 6] : List Byte).length
        0 6 32 0x13 false true = some text ∧
      mif_file_text sample_world.now [1, 2, 3, 4, 7, 9] ([1, 2, 3, 4, 7, 9] : List Byte).length
        0 6 32 0x13 false true = some text :=
  ⟨by decide, by decide, by decide,
   match (trailing_bytes_are_not_emitted sample_world [] [1, 2, 3, 4, 5, 6]
      [1, 2, 3, 4, 7, 9] 0 6 49152 32 0x13 false true (by decide) (by decide) rfl).1
      (by decide) (by decide) (by decide)
      (fun p hp => by
        have h : p < 4 ∨ 6 ≤ p := by
          by_contra hc
          exact hp ⟨by show 4 ≤ p; omega, by show p < 6; omega⟩
        rcases h with h | h
        · interval_cases p <;> rfl
        · rw [List.getD_eq_default _ _ (by simpa using h),
            List.getD_eq_default _ _ (by simpa using h)]) with
   | ⟨_, text, h1, h2, _⟩ => ⟨text, h1, h2⟩⟩

/-- Concatenating `n` runs of `m` consecutive values is the run of `n * m` values. -/
theorem flatten_range_blocks (g : Nat → Nat) (m : Nat) :
    ∀ n : Nat,
      ((List.range n).map (fun i => (List.range m).map (fun k => g (i * m + k)))).flatten
        = (List.range (n * m)).map g := by
  intro n
  induction n with
  | zero => simp
  | succ n ih =>
    rw [List.range_succ, List.map_append, List.flatten_append, ih, Nat.succ_mul,
      List.range_add, List.map_append, List.map_map]
    simp only [List.map_cons, List.map_nil, List.flatten_cons, List.flatten_nil,
      List.append_nil]
    rfl

/-- C16. For a block size that is a non-negative multiple of `word_size/8` and a number of
blocks whose total size fits an `int`, every block has a word sequence, and the
concatenation of the word sequences of blocks `0, ..., n - 1` in index order is the word
sequence of single-file mode with `total_size = n * block_size` and the same fill pattern. -/
theorem blocks_concatenate_to_single_file (data : List Byte) (n : Nat)
    (block_size word_size : Int) (fill_pattern : Nat)
    (hws : word_size = 8 ∨ word_size = 16 ∨ word_size = 32)
    (hlen : (data.length : Int) ≤ INT_MAX)
    (hbs : 0 ≤ block_size) (hdiv : block_size % (word_size / 8) = 0)
    (hrange : (n : Int) * block_size ≤ INT_MAX) :
    ∃ blocks : List (List Nat),
      blocks.length = n ∧
      (∀ i : Nat, i < n →
        ∃ words : List Nat, blocks.get? i = some words ∧
          mif_words data data.length i block_size word_size fill_pattern = some words) ∧
      single_mif_words data data.length (n * block_size) word_size fill_pattern
        = some blocks.flatten := by
  have hm : INT_MAX = 2147483647 := rfl
  rw [hm] at hlen hrange
  obtain ⟨_, hb⟩ := int_div_word_size hws
  have htot : 0 ≤ (n : Int) * block_size := Int.mul_nonneg (by omega) hbs
  refine ⟨(List.range n).map (fun i => (List.range (block_size / (word_size / 8)).toNat).map
    (fun k => word_at_offset data
      ((i * (block_size / (word_size / 8)).toNat + k) * (word_size / 8).toNat)
      (word_size / 8).toNat fill_pattern)), ?_, ?_, ?_⟩
  · rw [List.length_map, List.length_range]
  · intro i hi
    refine ⟨(List.range (block_size / (word_size / 8)).toNat).map
      (fun k => word_at_offset data
        ((i * (block_size / (word_size / 8)).toNat + k) * (word_size / 8).toNat)
        (word_size / 8).toNat fill_pattern), ?_, ?_⟩
    · rw [List.get?_eq_getElem?, List.getElem?_map, List.getElem?_range hi]
      rfl
    · have hr := block_range_le i n block_size (by omega) hbs
      have hnn : 0 ≤ (i : Int) * block_size := Int.mul_nonneg (by omega) hbs
      rw [mif_words_eq data i block_size word_size fill_pattern hws hlen (by omega) hbs
        (by omega)]
      congr 1
      apply List.map_congr_left
      intro k _
      congr 1
      have h1 : (((i : Int) * block_size).toNat : Int) = i * block_size :=
        Int.toNat_of_nonneg hnn
      have h2 : (((block_size / (word_size / 8)).toNat : Nat) : Int) * (word_size / 8)
          = block_size := by
        generalize word_size / 8 = b at hb hdiv
        rcases hb with h | h | h <;> subst h <;> omega
      have h3 : (((word_size / 8).toNat : Nat) : Int) = word_size / 8 := by
        generalize word_size / 8 = b at hb
        rcases hb with h | h | h <;> subst h <;> rfl
      have h4 : ((((i : Int) * block_size).toNat + k * (word_size / 8).toNat : Nat) : Int)
          = (((i * (block_size / (word_size / 8)).toNat + k) * (word_size / 8).toNat
              : Nat) : Int) := by
        push_cast
        rw [h1, h3, Int.add_mul, Int.mul_assoc, h2]
      exact_mod_cast h4
  · rw [single_mif_words_eq data (n * block_size) word_size fill_pattern hws hlen htot hrange]
    have hcount : ((n : Int) * block_size / (word_size / 8)).toNat
        = n * (block_size / (word_size / 8)).toNat := by
      have h2 : ∃ q : Int, 0 ≤ q ∧ block_size = q * (word_size / 8) ∧
          block_size / (word_size / 8) = q := by
        refine ⟨block_size / (word_size / 8), ?_, ?_, rfl⟩
        · generalize word_size / 8 = b at hb hdiv
          rcases hb with h | h | h <;> subst h <;> omega
        · generalize word_size / 8 = b at hb hdiv
          rcases hb with h | h | h <;> subst h <;> omega
      obtain ⟨q, hq0, hq, hq2⟩ := h2
      rw [hq2]
      have h3 : (n : Int) * block_size / (word_size / 8) = n * q := by
        rw [hq, ← Int.mul_assoc]
        apply Int.mul_ediv_cancel
        generalize word_size / 8 = b at hb
        rcases hb with h | h | h <;> subst h <;> decide
      rw [h3]
      have h4 : ((n : Int) * q).toNat = n * q.toNat := by
        have h5 : (((n * q.toNat : Nat)) : Int) = n * q := by
          push_cast
          rw [Int.toNat_of_nonneg hq0]
        rw [← h5]
        rfl
      exact h4
    rw [hcount, flatten_range_blocks (fun j => word_at_offset data
      (j * (word_size / 8).toNat) (word_size / 8).toNat fill_pattern)]

/-- Witness of C16: two blocks of four bytes over the image `01 02 03 04 05` against a
single file of eight bytes. -/
theorem blocks_concatenate_to_single_file_witness :
    ∃ blocks : List (List Nat),
      blocks.length = 2 ∧
      single_mif_words [1, 2, 3, 4, 5] ([1, 2, 3, 4, 5] : List Byte).length
        ((2 : Nat) * 4) 32 0x13 = some blocks.flatten :=
  match blocks_concatenate_to_single_file [1, 2, 3, 4, 5] 2 4 32 0x13 (by decide) (by decide)
      (by decide) (by decide) (by decide) with
  | ⟨blocks, h1, _, h3⟩ => ⟨blocks, h1, h3⟩

/-- The indices read by the inner loop from a non-negative offset that stays in the `int`
range are non-negative and below `data_size`. -/
theorem pack_reads_inside (data_size : Int) (off : Nat) :
    ∀ (n byte : Nat), (off : Int) + byte + n ≤ 2147483647 →
      ∀ idx, idx ∈ pack_reads data_size off n byte → 0 ≤ idx ∧ idx < data_size := by
  intro n
  induction n with
  | zero =>
    intro byte _ idx hmem
    simp [pack_reads] at hmem
  | succ n ih =>
    intro byte hmax idx hmem
    have hadd : int_add off byte = (off : Int) + byte := by
      unfold int_add
      exact wrap_int_of_range (by omega) (by push_cast at hmax; omega)
    rw [pack_reads] at hmem
    split at hmem
    · rename_i hguard
      rw [List.mem_cons] at hmem
      rcases hmem with h | h
      · rw [h, hadd]
        rw [hadd] at hguard
        exact ⟨by omega, hguard⟩
      · exact ih (byte + 1) (by push_cast at hmax ⊢; omega) idx h
    · simp at hmem

/-- A read at a non-negative index below the buffer length yields a byte. -/
theorem data_at_inside (data : List Byte) (idx : Int) (h0 : 0 ≤ idx)
    (h1 : idx < data.length) : ∃ b, data_at data idx = some b := by
  unfold data_at
  rw [if_pos h0]
  have h2 : idx.toNat < data.length := by omega
  exact ⟨data.get ⟨idx.toNat, h2⟩, List.get?_eq_get h2⟩

/-- C17. For a buffer of `data_size = data.length` bytes, a block with `block_num >= 0` and
`block_size > 0` whose end `block_num * block_size + block_size` fits an `int`, and a word
index below the word count, every index at which `generate_mif_file` reads `data` is
non-negative and below `data_size`, the read yields a byte and the word is produced; the
same holds for `generate_single_mif_file` with `0 <= total_size <= INT_MAX`. -/
theorem reads_stay_inside_buffer (data : List Byte)
    (block_num block_size total_size word_size : Int) (fill_pattern word : Nat)
    (hws : word_size = 8 ∨ word_size = 16 ∨ word_size = 32)
    (hlen : (data.length : Int) ≤ INT_MAX) :
    (0 ≤ block_num → 0 < block_size → block_num * block_size + block_size ≤ INT_MAX →
      (word : Int) < block_size / (word_size / 8) →
      ∃ (reads : List Int) (word_data : Nat),
        mif_word_reads data.length block_num block_size word_size word = some reads ∧
        (∀ idx, idx ∈ reads →
          0 ≤ idx ∧ idx < data.length ∧ ∃ b, data_at data idx = some b) ∧
        mif_word data data.length block_num block_size word_size fill_pattern word
          = some word_data) ∧
    (0 ≤ total_size → total_size ≤ INT_MAX →
      (word : Int) < total_size / (word_size / 8) →
      ∃ (reads : List Int) (word_data : Nat),
        single_mif_word_reads data.length word_size word = some reads ∧
        (∀ idx, idx ∈ reads →
          0 ≤ idx ∧ idx < data.length ∧ ∃ b, data_at data idx = some b) ∧
        single_mif_word data data.length word_size fill_pattern word = some word_data) := by
  have hm : INT_MAX = 2147483647 := rfl
  rw [hm] at hlen
  obtain ⟨hdiv, hb⟩ := int_div_word_size hws
  constructor
  · intro hnum hsize hrange hword
    rw [hm] at hrange
    have hp : 0 ≤ block_num * block_size := Int.mul_nonneg hnum (by omega)
    have hoff : (((block_num * block_size).toNat + word * (word_size / 8).toNat : Nat) : Int)
        = block_num * block_size + word * (word_size / 8) := by
      rw [Nat.cast_add, Nat.cast_mul, Int.toNat_of_nonneg hp, Int.toNat_of_nonneg (by omega)]
    have hend : (((block_num * block_size).toNat + word * (word_size / 8).toNat : Nat) : Int)
        + (word_size / 8) ≤ 2147483647 := by
      rw [hoff]
      generalize block_num * block_size = p at hp hrange
      generalize word_size / 8 = b at hb hword
      rcases hb with h | h | h <;> subst h <;> omega
    have hoffeq := mif_offset_eq block_num block_size (word_size / 8) word _ hoff (by omega)
    refine ⟨word_reads data.length
      (int_add (int_mul block_num block_size) (int_mul word (word_size / 8)))
      (word_size / 8), _, ?_, ?_, mif_word_in_range data block_num block_size word_size fill_pattern
      word hws hlen hnum (by omega) hrange hword⟩
    · unfold mif_word_reads
      rw [hdiv]
    · intro idx hmem
      rw [hoffeq] at hmem
      unfold word_reads at hmem
      split at hmem
      · have h := pack_reads_inside data.length _ (word_size / 8).toNat 0 (by
          have : (((word_size / 8).toNat : Nat) : Int) = word_size / 8 :=
            Int.toNat_of_nonneg (by omega)
          push_cast
          omega) idx hmem
        exact ⟨h.1, h.2, data_at_inside data idx h.1 h.2⟩
      · simp at hmem
  · intro hsize hrange hword
    rw [hm] at hrange
    have hoff : ((word * (word_size / 8).toNat : Nat) : Int) = word * (word_size / 8) := by
      rw [Nat.cast_mul, Int.toNat_of_nonneg (by omega)]
    have hend : ((word * (word_size / 8).toNat : Nat) : Int) + (word_size / 8)
        ≤ 2147483647 := by
      rw [hoff]
      generalize word_size / 8 = b at hb hword
      rcases hb with h | h | h <;> subst h <;> omega
    have hoffeq := single_offset_eq (word_size / 8) word _ hoff (by omega)
    refine ⟨word_reads data.length (int_mul word (word_size / 8)) (word_size / 8), _, ?_, ?_,
      single_mif_word_in_range data total_size word_size fill_pattern
      word hws hlen hrange hword⟩
    · unfold single_mif_word_reads
      rw [hdiv]
    · intro idx hmem
      rw [hoffeq] at hmem
      unfold word_reads at hmem
      split at hmem
      · have h := pack_reads_inside data.length _ (word_size / 8).toNat 0 (by
          have : (((word_size / 8).toNat : Nat) : Int) = word_size / 8 :=
            Int.toNat_of_nonneg (by omega)
          push_cast
          omega) idx hmem
        exact ⟨h.1, h.2, data_at_inside data idx h.1 h.2⟩
      · simp at hmem

/-- Witness of C17: word 1 of the block `[0, 8)` over the image `01 02 03 04 05` reads the
single index 4. -/
theorem reads_stay_inside_buffer_witness :
    mif_word_reads 5 0 8 32 1 = some [4] ∧
    ∃ (reads : List Int) (word_data : Nat),
      mif_word_reads (([1, 2, 3, 4, 5] : List Byte).length : Int) 0 8 32 1 = some reads ∧
      (∀ idx, idx ∈ reads →
        0 ≤ idx ∧ idx < (([1, 2, 3, 4, 5] : List Byte).length : Int) ∧
          ∃ b, data_at ([1, 2, 3, 4, 5] : List Byte) idx = some b) ∧
      mif_word [1, 2, 3, 4, 5] (([1, 2, 3, 4, 5] : List Byte).length : Int) 0 8 32 0x13 1
        = some word_data :=
  ⟨by decide,
   (reads_stay_inside_buffer [1, 2, 3, 4, 5] 0 8 49152 32 0x13 1 (by decide) (by decide)).1
     (by decide) (by decide) (by decide) (by decide)⟩

/-- The little-endian value of `n` byte lanes is below `2^(8n)`. -/
theorem le_value_lt (data : List Byte) (off : Nat) :
    ∀ n : Nat, le_value data off n < 2 ^ (8 * n) := by
  intro n
  induction n with
  | zero => simp [le_value]
  | succ n ih =>
    have hstep : le_value data off (n + 1)
        = le_value data off n + lane_byte data off n * 2 ^ (8 * n) := by
      unfold le_value
      rw [List.range_succ, List.map_append, List.sum_append]
      simp
    have hl := lane_byte_lt data off n
    have hpow : 2 ^ (8 * (n + 1)) = 256 * 2 ^ (8 * n) := by
      rw [Nat.mul_add, Nat.pow_add]
      omega
    have hmul : lane_byte data off n * 2 ^ (8 * n) ≤ 255 * 2 ^ (8 * n) :=
      Nat.mul_le_mul_right _ (by omega)
    rw [hstep, hpow]
    omega

/-- A word that starts inside the buffer is below `2^word_size`. -/
theorem word_at_offset_lt (data : List Byte) (off : Nat) (word_size : Int)
    (fill_pattern : Nat)
    (hws : word_size = 8 ∨ word_size = 16 ∨ word_size = 32) (hoff : off < data.length) :
    word_at_offset data off (word_size / 8).toNat fill_pattern < 2 ^ word_size.toNat := by
  unfold word_at_offset
  rw [if_pos hoff]
  have h := le_value_lt data off (word_size / 8).toNat
  have he : 8 * (word_size / 8).toNat = word_size.toNat := by
    rcases hws with h | h | h <;> subst h <;> rfl
  rw [he] at h
  exact h

/-- C18. A word sourced from the image (its starting offset is below the buffer length)
is below `2^word_size` for `word_size` 8, 16 or 32, in `generate_mif_file` and in
`generate_single_mif_file`; so the value of its DATA field fits the declared WIDTH. -/
theorem image_word_fits_width (data : List Byte)
    (block_num block_size total_size word_size : Int) (fill_pattern word : Nat)
    (hws : word_size = 8 ∨ word_size = 16 ∨ word_size = 32)
    (hlen : (data.length : Int) ≤ INT_MAX) :
    (0 ≤ block_num → 0 ≤ block_size → block_num * block_size + block_size ≤ INT_MAX →
      (word : Int) < block_size / (word_size / 8) →
      block_num * block_size + word * (word_size / 8) < data.length →
      ∃ word_data : Nat,
        mif_word data data.length block_num block_size word_size fill_pattern word
          = some word_data ∧
        word_data < 2 ^ word_size.toNat ∧
        read_hex (printf_X 8 word_data) = some word_data) ∧
    (0 ≤ total_size → total_size ≤ INT_MAX →
      (word : Int) < total_size / (word_size / 8) →
      (word : Int) * (word_size / 8) < data.length →
      ∃ word_data : Nat,
        single_mif_word data data.length word_size fill_pattern word = some word_data ∧
        word_data < 2 ^ word_size.toNat ∧
        read_hex (printf_X 8 word_data) = some word_data) := by
  have hm : INT_MAX = 2147483647 := rfl
  rw [hm] at hlen
  obtain ⟨hdiv, hb⟩ := int_div_word_size hws
  have hpow : 2 ^ word_size.toNat ≤ 4294967296 := by
    rcases hws with h | h | h <;> subst h <;> decide
  constructor
  · intro hnum hsize hrange hword hin
    rw [hm] at hrange
    have hp : 0 ≤ block_num * block_size := Int.mul_nonneg hnum hsize
    have hoff : (((block_num * block_size).toNat + word * (word_size / 8).toNat : Nat) : Int)
        = block_num * block_size + word * (word_size / 8) := by
      rw [Nat.cast_add, Nat.cast_mul, Int.toNat_of_nonneg hp, Int.toNat_of_nonneg (by omega)]
    have hlt := word_at_offset_lt data
      ((block_num * block_size).toNat + word * (word_size / 8).toNat) word_size fill_pattern
      hws (by omega)
    exact ⟨_, mif_word_in_range data block_num block_size word_size fill_pattern word hws
      hlen hnum hsize hrange hword, hlt, by
        rw [read_hex_printf_X, Nat.mod_eq_of_lt (by omega)]⟩
  · intro hsize hrange hword hin
    rw [hm] at hrange
    have hoff : ((word * (word_size / 8).toNat : Nat) : Int) = word * (word_size / 8) := by
      rw [Nat.cast_mul, Int.toNat_of_nonneg (by omega)]
    have hlt := word_at_offset_lt data (word * (word_size / 8).toNat) word_size fill_pattern
      hws (by omega)
    exact ⟨_, single_mif_word_in_range data total_size word_size fill_pattern word hws
      hlen hrange hword, hlt, by
        rw [read_hex_printf_X, Nat.mod_eq_of_lt (by omega)]⟩

/-- Witness of C18: with 16-bit words, word 1 over the image `01 02 03 04 05` is `0x0403`,
below `2^16`. -/
theorem image_word_fits_width_witness :
    mif_word [1, 2, 3, 4, 5] 5 0 8 16 0x13 1 = some 0x0403 ∧
    ∃ word_data : Nat,
      mif_word [1, 2, 3, 4, 5] (([1, 2, 3, 4, 5] : List Byte).length : Int) 0 8 16 0x13 1
        = some word_data ∧
      word_data < 2 ^ (16 : Int).toNat ∧
      read_hex (printf_X 8 word_data) = some word_data :=
  ⟨by decide,
   (image_word_fits_width [1, 2, 3, 4, 5] 0 8 49152 16 0x13 1 (by decide) (by decide)).1
     (by decide) (by decide) (by decide) (by decide) (by decide)⟩

/-- A word whose slot lies inside a buffer keeps its value when bytes are appended. -/
theorem word_at_offset_append (a extra : List Byte) (off n fill_pattern : Nat)
    (hn : 0 < n) (hin : off + n ≤ a.length) :
    word_at_offset (a ++ extra) off n fill_pattern = word_at_offset a off n fill_pattern := by
  unfold word_at_offset
  rw [if_pos (by rw [List.length_append]; omega), if_pos (by omega)]
  unfold le_value
  congr 1
  apply List.map_congr_left
  intro k hk
  rw [List.mem_range] at hk
  rw [lane_byte_of_lt _ off k (by rw [List.length_append]; omega),
    lane_byte_of_lt a off k (by omega), List.getD_append _ _ _ _ (by omega)]

/-- C19. If image `a` is extended by further bytes, every word whose slot
`[offset, offset + word_size/8)` lies inside `a` has the same value packed from `a` and
from the extended image, namely the little-endian value of the slot's bytes in `a`; this
holds in `generate_mif_file` and in `generate_single_mif_file`. -/
theorem appended_bytes_keep_covered_words (a extra : List Byte)
    (block_num block_size total_size word_size : Int) (fill_pattern word : Nat)
    (hws : word_size = 8 ∨ word_size = 16 ∨ word_size = 32)
    (hlen : ((a ++ extra).length : Int) ≤ INT_MAX) :
    (0 ≤ block_num → 0 ≤ block_size → block_num * block_size + block_size ≤ INT_MAX →
      (word : Int) < block_size / (word_size / 8) →
      block_num * block_size + word * (word_size / 8) + word_size / 8 ≤ a.length →
      ∃ word_data : Nat,
        mif_word a a.length block_num block_size word_size fill_pattern word
          = some word_data ∧
        mif_word (a ++ extra) (a ++ extra).length block_num block_size word_size
          fill_pattern word = some word_data ∧
        word_data = packed_le a
          ((block_num * block_size).toNat + word * (word_size / 8).toNat)
          (word_size / 8).toNat) ∧
    (0 ≤ total_size → total_size ≤ INT_MAX →
      (word : Int) < total_size / (word_size / 8) →
      (word : Int) * (word_size / 8) + word_size / 8 ≤ a.length →
      ∃ word_data : Nat,
        single_mif_word a a.length word_size fill_pattern word = some word_data ∧
        single_mif_word (a ++ extra) (a ++ extra).length word_size fill_pattern word
          = some word_data ∧
        word_data = packed_le a (word * (word_size / 8).toNat) (word_size / 8).toNat) := by
  have hm : INT_MAX = 2147483647 := rfl
  rw [hm] at hlen
  have hlena : (a.length : Int) ≤ 2147483647 := by
    rw [List.length_append] at hlen
    push_cast at hlen
    omega
  obtain ⟨hdiv, hb⟩ := int_div_word_size hws
  have hbn : 0 < (word_size / 8).toNat := by
    rcases hws with h | h | h <;> subst h <;> decide
  have hbc : (((word_size / 8).toNat : Nat) : Int) = word_size / 8 :=
    Int.toNat_of_nonneg (by omega)
  constructor
  · intro hnum hsize hrange hword hin
    rw [hm] at hrange
    have hp : 0 ≤ block_num * block_size := Int.mul_nonneg hnum hsize
    have hoff : (((block_num * block_size).toNat + word * (word_size / 8).toNat : Nat) : Int)
        = block_num * block_size + word * (word_size / 8) := by
      rw [Nat.cast_add, Nat.cast_mul, Int.toNat_of_nonneg hp, hbc]
    have hinn : (block_num * block_size).toNat + word * (word_size / 8).toNat
        + (word_size / 8).toNat ≤ a.length := by
      have : ((((block_num * block_size).toNat + word * (word_size / 8).toNat
          + (word_size / 8).toNat : Nat)) : Int) ≤ a.length := by
        rw [Nat.cast_add, hoff, hbc]
        exact hin
      exact_mod_cast this
    refine ⟨_, mif_word_in_range a block_num block_size word_size fill_pattern word hws
      hlena hnum hsize hrange hword, ?_, ?_⟩
    · rw [mif_word_in_range (a ++ extra) block_num block_size word_size fill_pattern word hws
        hlen hnum hsize hrange hword, word_at_offset_append a extra _ _ _ hbn hinn]
    · unfold word_at_offset
      rw [if_pos (by omega), le_value_eq_packed_le a _ _ hinn]
  · intro hsize hrange hword hin
    rw [hm] at hrange
    have hoff : ((word * (word_size / 8).toNat : Nat) : Int) = word * (word_size / 8) := by
      rw [Nat.cast_mul, hbc]
    have hinn : word * (word_size / 8).toNat + (word_size / 8).toNat ≤ a.length := by
      have : (((word * (word_size / 8).toNat + (word_size / 8).toNat : Nat)) : Int)
          ≤ a.length := by
        rw [Nat.cast_add, hoff, hbc]
        exact hin
      exact_mod_cast this
    refine ⟨_, single_mif_word_in_range a total_size word_size fill_pattern word hws
      hlena hrange hword, ?_, ?_⟩
    · rw [single_mif_word_in_range (a ++ extra) total_size word_size fill_pattern word hws
        hlen hrange hword, word_at_offset_append a extra _ _ _ hbn hinn]
    · unfold word_at_offset
      rw [if_pos (by omega), le_value_eq_packed_le a _ _ hinn]

/-- Witness of C19: word 0 of the image `01 02 03 04 05` is unchanged by appending
`06 07 08`, while the boundary word 1 changes. -/
theorem appended_bytes_keep_covered_words_witness :
    mif_word [1, 2, 3, 4, 5] 5 0 8 32 0x13 1 = some 0x00000005 ∧
    mif_word [1, 2, 3, 4, 5, 6, 7, 8] 8 0 8 32 0x13 1 = some 0x08070605 ∧
    ∃ word_data : Nat,
      mif_word [1, 2, 3, 4, 5] (([1, 2, 3, 4, 5] : List Byte).length : Int) 0 8 32 0x13 0
        = some word_data ∧
      mif_word ([1, 2, 3, 4, 5] ++ [6, 7, 8])
        ((([1, 2, 3, 4, 5] : List Byte) ++ [6, 7, 8]).length : Int) 0 8 32 0x13 0
        = some word_data :=
  ⟨by decide, by decide,
   match (appended_bytes_keep_covered_words [1, 2, 3, 4, 5] [6, 7, 8] 0 8 49152 32 0x13 0
      (by decide) (by decide)).1 (by decide) (by decide) (by decide) (by decide)
      (by decide) with
   | ⟨word_data, h1, h2, _⟩ => ⟨word_data, h1, h2⟩⟩

/-- One loop iteration from an index inside the table: it writes the table entry, which
has a single bit set among bits 0 to 17, and moves to the next index modulo 34. -/
theorem led_loop_body_inside :
    ∀ i : Nat, i < 34 →
      led_loop_body i = some (knight_rider_patterns.getD i 0, (i + 1) % 34) ∧
      knight_rider_patterns.get? i = some (knight_rider_patterns.getD i 0) ∧
      ∃ bit : Nat, bit < 18 ∧ knight_rider_patterns.getD i 0 = 2 ^ bit := by
  decide

/-- Every reachable `pattern_index` is inside the table. -/
theorem led_reachable_lt (i : Nat) (h : led_reachable i) : i < 34 := by
  induction h with
  | start => decide
  | step i next _ hstep ih =>
    obtain ⟨pattern, hbody⟩ := hstep
    rw [(led_loop_body_inside i ih).1] at hbody
    simp only [Option.some.injEq, Prod.mk.injEq] at hbody
    rw [← hbody.2]
    exact Nat.mod_lt _ (by decide)

/-- The values written by `n` iterations from an index inside the table are the table
entries at the following indices modulo 34. -/
theorem led_writes_inside :
    ∀ (n i : Nat), i < 34 →
      ∃ values : List Nat, led_writes n i = some values ∧ values.length = n ∧
        ∀ k : Nat, k < n →
          values.get? k = some (knight_rider_patterns.getD ((i + k) % 34) 0) := by
  intro n
  induction n with
  | zero =>
    intro i _
    exact ⟨[], rfl, rfl, fun k hk => absurd hk (Nat.not_lt_zero k)⟩
  | succ n ih =>
    intro i hi
    obtain ⟨values, hv, hl, hget⟩ := ih ((i + 1) % 34) (Nat.mod_lt _ (by decide))
    refine ⟨knight_rider_patterns.getD i 0 :: values, ?_, ?_, ?_⟩
    · rw [led_writes, (led_loop_body_inside i hi).1]
      simp only []
      rw [hv]
    · rw [List.length_cons, hl]
    · intro k hk
      cases k with
      | zero =>
        rw [Nat.add_zero, Nat.mod_eq_of_lt hi]
        rfl
      | succ k =>
        rw [List.get?_cons_succ, hget k (by omega)]
        have : ((i + 1) % 34 + k) % 34 = (i + (k + 1)) % 34 := by omega
        rw [this]

/-- C20. For every value of `pattern_index` reachable from 0 by loop iterations:
the index is below 34, the number of table entries, so the table read is in bounds; the
iteration writes the table entry at the index, which has exactly one bit set, among bits
0 to 17; the next index is `(pattern_index + 1) mod 34` and the following iteration writes
the entry there; any number of iterations runs and writes the entries in cyclic order. -/
theorem led_chaser_invariants (pattern_index : Nat) (h : led_reachable pattern_index) :
    num_patterns = 34 ∧ pattern_index < 34 ∧
    ∃ (pattern next next_pattern after : Nat),
      led_loop_body pattern_index = some (pattern, next) ∧
      knight_rider_patterns.get? pattern_index = some pattern ∧
      (∃ bit : Nat, bit < 18 ∧ pattern = 2 ^ bit) ∧
      next = (pattern_index + 1) % 34 ∧
      led_loop_body next = some (next_pattern, after) ∧
      knight_rider_patterns.get? ((pattern_index + 1) % 34) = some next_pattern ∧
      ∀ n : Nat, ∃ values : List Nat,
        led_writes n pattern_index = some values ∧ values.length = n ∧
        ∀ k : Nat, k < n →
          values.get? k = knight_rider_patterns.get? ((pattern_index + k) % 34) ∧
          ∃ bit : Nat, bit < 18 ∧ values.get? k = some (2 ^ bit) := by
  have hlt := led_reachable_lt pattern_index h
  have hnext : (pattern_index + 1) % 34 < 34 := Nat.mod_lt _ (by decide)
  obtain ⟨h1, h2, h3⟩ := led_loop_body_inside pattern_index hlt
  obtain ⟨h4, h5, _⟩ := led_loop_body_inside ((pattern_index + 1) % 34) hnext
  refine ⟨rfl, hlt, _, _, _, _, h1, h2, h3, rfl, h4, h5, ?_⟩
  intro n
  obtain ⟨values, hv, hl, hget⟩ := led_writes_inside n pattern_index hlt
  refine ⟨values, hv, hl, ?_⟩
  intro k hk
  have hk34 : (pattern_index + k) % 34 < 34 := Nat.mod_lt _ (by decide)
  obtain ⟨_, h6, bit, hb, h7⟩ := led_loop_body_inside ((pattern_index + k) % 34) hk34
  refine ⟨?_, bit, hb, ?_⟩
  · rw [hget k hk, h6]
  · rw [hget k hk, h7]

/-- Witness of C20: the index reached after the first iteration. -/
theorem led_chaser_invariants_witness :
    led_reachable 1 ∧ led_loop_body 1 = some (0x00002, 2) ∧
    led_writes 3 33 = some [0x00002, 0x00001, 0x00002] ∧ (1 : Nat) < 34 :=
  ⟨led_reachable.step 0 1 led_reachable.start ⟨1, rfl⟩, by decide, by decide,
   (led_chaser_invariants 1 (led_reachable.step 0 1 led_reachable.start ⟨1, rfl⟩)).2.1⟩
end Bin2Mif
